import Mathlib

/-!
# Verification of the minato database layer (model registry, query evaluator, mongo builder)

This file embeds, as executable Lean definitions, the parts of the code base that the
verified properties talk about:

* the JavaScript runtime values that records, queries and field definitions are made of
  (`Value`), together with the JS primitives the code relies on (truthiness, nullability,
  strict equality, property access, `Object.entries` iteration order, property assignment);
* `packages/core/src/query.ts`: `queryOperators`, `executeFieldQuery`, `executeQuery`,
  `getCell`;
* the model registry (`Field.parse`, `Model.extend`, `Model.format`, `Model.parse`,
  `Model.resolveValue`, `Model.create`);
* `packages/mongo/src/builder.ts`: `transformFieldQuery`, `createFieldFilter`,
  `Builder.query`, the polymorphic `$and` eval operator, `Builder.toUpdateExpr` and the
  empty-object guard of `transformEvalExpr`.

JS objects are modelled as association lists in property insertion order, which is the
order `Object.entries` and `for … in` iterate.  Numbers are modelled as integers (the
properties under study never produce fractional values); `NaN` only arises from string
conversion and is represented explicitly there.  Reference identity of objects is not
modelled: where the code compares potentially-object values with `===` or SameValueZero,
two object values are never equal (distinct literals), which is the behaviour for all
inputs that do not share references.
-/

namespace Minato

/-- A JavaScript `Date`, reduced to the components the code observes: the calendar-day
part (`getFullYear/Month/Date`, collapsed into one abstract index, day `0` being the day
of `new Date(0)`) and the local time-of-day parts (`getHours`, `getMinutes`,
`getSeconds`, `getMilliseconds`). -/
structure JSDate where
  day : Int
  hour : Nat
  minute : Nat
  second : Nat
  milli : Nat
  deriving DecidableEq

/-- `new Date(0)`: the epoch.  Its local time-of-day components are taken as zero (a
fixed abstract choice of time zone); `Model.resolveValue` overwrites all of them via
`setHours`, so nothing proved here depends on that choice. -/
def epochDate : JSDate := ⟨0, 0, 0, 0, 0⟩

/-- Milliseconds represented by a date (`Date.prototype.valueOf`). -/
def JSDate.ms (d : JSDate) : Int :=
  d.day * 86400000 + d.hour * 3600000 + d.minute * 60000 + d.second * 1000 + d.milli

/-- A JavaScript runtime value.  `vexpr` stands for an evaluation-expression object
(a node of the `Eval` IR): the code under study never looks inside such a value, it only
tests for it with `isEvalExpr` and passes it through, so it is carried as an opaque tag. -/
inductive Value where
  | vundef : Value
  | vnull : Value
  | vbool : Bool → Value
  | vnum : Int → Value
  | vstr : String → Value
  | vdate : JSDate → Value
  | vexpr : Nat → Value
  | varr : List Value → Value
  | vobj : List (String × Value) → Value

mutual
def Value.beq : Value → Value → Bool
  | .vundef, .vundef => true
  | .vnull, .vnull => true
  | .vbool a, .vbool b => a == b
  | .vnum a, .vnum b => a == b
  | .vstr a, .vstr b => a == b
  | .vdate a, .vdate b => a == b
  | .vexpr a, .vexpr b => a == b
  | .varr a, .varr b => Value.beqList a b
  | .vobj a, .vobj b => Value.beqObj a b
  | _, _ => false
def Value.beqList : List Value → List Value → Bool
  | [], [] => true
  | x :: xs, y :: ys => Value.beq x y && Value.beqList xs ys
  | _, _ => false
def Value.beqObj : List (String × Value) → List (String × Value) → Bool
  | [], [] => true
  | (k1, v1) :: xs, (k2, v2) :: ys => k1 == k2 && Value.beq v1 v2 && Value.beqObj xs ys
  | _, _ => false
end

mutual
theorem Value.beq_iff : ∀ a b : Value, Value.beq a b = true ↔ a = b
  | .vundef, b => by cases b <;> simp [Value.beq]
  | .vnull, b => by cases b <;> simp [Value.beq]
  | .vbool a, b => by cases b <;> simp [Value.beq]
  | .vnum a, b => by cases b <;> simp [Value.beq]
  | .vstr a, b => by cases b <;> simp [Value.beq]
  | .vdate a, b => by cases b <;> simp [Value.beq]
  | .vexpr a, b => by cases b <;> simp [Value.beq]
  | .varr a, b => by
      cases b <;> simp [Value.beq]
      exact Value.beqList_iff a _
  | .vobj a, b => by
      cases b <;> simp [Value.beq]
      exact Value.beqObj_iff a _
theorem Value.beqList_iff : ∀ xs ys : List Value, Value.beqList xs ys = true ↔ xs = ys
  | [], ys => by cases ys <;> simp [Value.beqList]
  | x :: xs, ys => by
      cases ys with
      | nil => simp [Value.beqList]
      | cons y ys =>
          simp [Value.beqList, Bool.and_eq_true, Value.beq_iff x y, Value.beqList_iff xs ys]
theorem Value.beqObj_iff : ∀ xs ys : List (String × Value), Value.beqObj xs ys = true ↔ xs = ys
  | [], ys => by cases ys <;> simp [Value.beqObj]
  | (k, v) :: xs, ys => by
      cases ys with
      | nil => simp [Value.beqObj]
      | cons y ys =>
          obtain ⟨k2, v2⟩ := y
          simp [Value.beqObj, Bool.and_eq_true, Value.beq_iff v v2, Value.beqObj_iff xs ys,
            Prod.ext_iff, and_assoc]
end

instance : DecidableEq Value := fun a b => decidable_of_iff _ (Value.beq_iff a b)

/-- cosmokit's `isNullable(value)`: `value === null || value === undefined`. -/
def isNullable : Value → Bool
  | .vundef => true
  | .vnull => true
  | _ => false

/-- JS truthiness (`!value` is `!jsTruthy value`).  `NaN` numbers do not occur as record
values in this development. -/
def jsTruthy : Value → Bool
  | .vundef => false
  | .vnull => false
  | .vbool b => b
  | .vnum n => n != 0
  | .vstr s => s ≠ ""
  | _ => true

/-- `typeof value === 'object'` (note `typeof null === 'object'` in JS). -/
def isObjectTypeof : Value → Bool
  | .vnull => true
  | .vdate _ => true
  | .vexpr _ => true
  | .varr _ => true
  | .vobj _ => true
  | _ => false

/-- Modelled from the spec: `isEvalExpr` (defined in the core `eval.ts`, which is not part
of the sources here) recognises evaluation-expression nodes; "preserving expression terms
verbatim (they pass through unchanged)". -/
def isEvalExpr : Value → Bool
  | .vexpr _ => true
  | _ => false

/-- Modelled from the spec: `isComparable` (defined in the core `utils.ts`, which is not
part of the sources here) holds of the `Comparable` values: numbers, strings, booleans
and dates ("a bare comparable is `$eq`"; "`$eq/…` compare by value-of coercion; dates
compare by epoch milliseconds"). -/
def isComparable : Value → Bool
  | .vnum _ => true
  | .vstr _ => true
  | .vbool _ => true
  | .vdate _ => true
  | _ => false

/-- JS strict equality `===` restricted to the modelled values.  Object-typed values
(dates, arrays, plain objects, expression nodes) compare by reference, so two distinct
literals are never equal; `NaN`/`-0` are not modelled, so this function also computes
SameValueZero (the algorithm behind `Array.prototype.includes`). -/
def jsStrictEq : Value → Value → Bool
  | .vundef, .vundef => true
  | .vnull, .vnull => true
  | .vbool a, .vbool b => a == b
  | .vnum a, .vnum b => a == b
  | .vstr a, .vstr b => a == b
  | _, _ => false

/-- `value.valueOf()`: throws a `TypeError` on `null`/`undefined`; a `Date` yields its
epoch milliseconds; every other modelled value yields itself (for plain objects and
arrays `valueOf` returns the object, which then never compares `===`-equal to a
primitive, consistently with `jsStrictEq`). -/
def jsValueOf : Value → Except Unit Value
  | .vundef => .error ()
  | .vnull => .error ()
  | .vdate d => .ok (.vnum d.ms)
  | v => .ok v

/-- `Object.entries` / `for … in` enumeration of own enumerable properties, in property
insertion order.  Arrays enumerate their indices as string keys; dates and primitives
have no own enumerable properties. -/
def entriesOf : Value → List (String × Value)
  | .vobj kvs => kvs
  | .varr xs => (xs.enum.map fun (iv : Nat × Value) => (toString iv.1, iv.2))
  | _ => []

/-- Association-list lookup: first binding wins (JS objects have unique keys, so lists
built by `alistSet` never contain duplicates). -/
def alistLookup {α : Type} : List (String × α) → String → Option α
  | [], _ => none
  | (k', v) :: rest, k => if k' = k then some v else alistLookup rest k

/-- JS property assignment `obj[key] = v`: an existing key keeps its position and gets
the new value, a fresh key is appended. -/
def alistSet {α : Type} : List (String × α) → String → α → List (String × α)
  | [], k, v => [(k, v)]
  | (k', v') :: rest, k, v =>
      if k' = k then (k', v) :: rest else (k', v') :: alistSet rest k v

/-- Property lookup on an object value. -/
def jsLookup : List (String × Value) → String → Option Value := alistLookup

/-- Property assignment on an object value. -/
def jsSet : List (String × Value) → String → Value → List (String × Value) := alistSet

/-- JS `String.prototype.split` with a one-character separator, on character lists:
`split` never yields an empty list (the empty string splits to `[""]`). -/
def splitChar (sep : Char) : List Char → List (List Char)
  | [] => [[]]
  | c :: rest =>
      if c = sep then [] :: splitChar sep rest
      else match splitChar sep rest with
        | g :: gs => (c :: g) :: gs
        | [] => [[c]]

/-- `s.split(sep)` for a one-character separator. -/
def jsSplit (sep : Char) (s : String) : List String :=
  (splitChar sep s.toList).map fun g => String.mk g

/-- `s.startsWith(p)`, on the character lists. -/
def strStartsWith (s p : String) : Bool := p.toList.isPrefixOf s.toList

/-- Object spread `{ ...a, ...b }`: every property of `b` assigned onto a copy of `a`. -/
def jsMerge (a b : List (String × Value)) : List (String × Value) :=
  b.foldl (fun acc (kv : String × Value) => jsSet acc kv.1 kv.2) a

/-- Property read `r[k]` as used by `getCell`'s `reduce`: throws a `TypeError` when the
receiver is `null`/`undefined`; objects yield the stored value or `undefined`; arrays and
strings expose their elements and `length`; other primitives yield `undefined` (their
prototype methods are not modelled — the code only reads data properties). -/
def jsGetProp : Value → String → Except Unit Value
  | .vundef, _ => .error ()
  | .vnull, _ => .error ()
  | .vobj kvs, k => .ok ((jsLookup kvs k).getD .vundef)
  | .varr xs, k =>
      if k = "length" then .ok (.vnum xs.length)
      else match k.toNat? with
        | some i => if toString i = k then .ok ((xs.get? i).getD .vundef) else .ok .vundef
        | none => .ok .vundef
  | .vstr s, k =>
      if k = "length" then .ok (.vnum s.length)
      else match k.toNat? with
        | some i =>
            if toString i = k then
              .ok (((s.toList.get? i).map fun c => Value.vstr (String.mk [c])).getD .vundef)
            else .ok .vundef
        | none => .ok .vundef
  | _, _ => .ok (.vundef)

/-! ## `packages/core/src/query.ts` — the portable query evaluator

A `Query.Field` is dispatched on its runtime shape (`executeFieldQuery`): an array is the
`$in` shorthand, a comparable is the `$eq` shorthand, `null`/`undefined` tests
nullability, and an operator object runs every recognised operator key.  `FieldQuery`
mirrors exactly those shapes; an operator object is carried as the list of its entries in
insertion order, each entry one operator with its payload.  `$regex`/`$regexFor`,
`$bitsAll…`, `$el`, `$size` and the relation operators are not exercised by the
properties below and have no constructor; `opOther` stands for any key that is not in
`queryOperators` (such as `$some`), which the evaluator skips. -/

mutual
inductive FieldQuery where
  | qval : Value → FieldQuery
  | qops : List FieldOp → FieldQuery
inductive FieldOp where
  | opOr : List FieldQuery → FieldOp
  | opAnd : List FieldQuery → FieldOp
  | opNot : FieldQuery → FieldOp
  | opExists : Bool → FieldOp
  | opEq : Value → FieldOp
  | opNe : Value → FieldOp
  | opIn : List Value → FieldOp
  | opNin : List Value → FieldOp
  | opOther : String → Value → FieldOp
end

/-! `executeFieldQuery` and the `queryOperators` table.  Exceptions (`valueOf` on
`null`/`undefined`) propagate to the caller, which is why the result is in `Except`;
`executeQuery` catches them.  `$or`/`$and` use `reduce` with `prev || …`/`prev && …`,
so once the accumulator is decided the remaining sub-queries are not evaluated (and
cannot throw): the folds below mirror that short-circuit. -/
mutual
def executeFieldQuery : FieldQuery → Value → Except Unit Bool
  | .qops l, data => execFieldOps l data
  | .qval q, data =>
      match q with
      | .varr xs => .ok (xs.any (jsStrictEq · data))
      | .vnum n => do
          let a ← jsValueOf data
          .ok (jsStrictEq a (.vnum n))
      | .vstr s => do
          let a ← jsValueOf data
          .ok (jsStrictEq a (.vstr s))
      | .vbool b => do
          let a ← jsValueOf data
          .ok (jsStrictEq a (.vbool b))
      | .vdate d => do
          let a ← jsValueOf data
          .ok (jsStrictEq a (.vnum d.ms))
      | .vnull => .ok (isNullable data)
      | .vundef => .ok (isNullable data)
      | .vobj _ => .ok true
      | .vexpr _ => .ok true
def execFieldOps : List FieldOp → Value → Except Unit Bool
  | [], _ => .ok true
  | op :: rest, data => do
      match op with
      | .opOther _ _ => execFieldOps rest data
      | _ => do
          let b ← execFieldOp op data
          if b then execFieldOps rest data else .ok false
def execFieldOp : FieldOp → Value → Except Unit Bool
  | .opOr qs, data => execOrFold qs data false
  | .opAnd qs, data => execAndFold qs data true
  | .opNot q, data => do
      let b ← executeFieldQuery q data
      .ok (!b)
  | .opExists b, data => .ok (b != isNullable data)
  | .opEq v, data => do
      let a ← jsValueOf data
      let q ← jsValueOf v
      .ok (jsStrictEq a q)
  | .opNe v, data => do
      let a ← jsValueOf data
      let q ← jsValueOf v
      .ok (!jsStrictEq a q)
  | .opIn xs, data => .ok (xs.any (jsStrictEq · data))
  | .opNin xs, data => .ok (!xs.any (jsStrictEq · data))
  | .opOther _ _, _ => .ok true
def execOrFold : List FieldQuery → Value → Bool → Except Unit Bool
  | [], _, acc => .ok acc
  | q :: rest, data, acc =>
      if acc then execOrFold rest data true
      else do
        let b ← executeFieldQuery q data
        execOrFold rest data b
def execAndFold : List FieldQuery → Value → Bool → Except Unit Bool
  | [], _, acc => .ok acc
  | q :: rest, data, acc =>
      if acc then do
        let b ← executeFieldQuery q data
        execAndFold rest data b
      else execAndFold rest data false
end

/-- `getCell(row, key)`: `key.split('.').reduce((r, k) => r[k], row)`.  A step throws
when the intermediate value is `null`/`undefined`. -/
def getCell (row : Value) (key : String) : Except Unit Value :=
  (jsSplit '.' key).foldlM jsGetProp row

/-! A top-level `Query.Expr` is an object whose entries `executeQuery` walks in
insertion order: the keys `$and`/`$or`/`$not` are the logical combinators, every other
key is a field query against the dotted path named by the key.  (`$expr` delegates to
`executeEval` over the `Eval` IR, which is outside the sources modelled here and has no
constructor; field keys never collide with the three operator names, which the
constructors make structural.) -/

mutual
inductive QueryExpr where
  | mk : List QueryEntry → QueryExpr
inductive QueryEntry where
  | entAnd : List QueryExpr → QueryEntry
  | entOr : List QueryExpr → QueryEntry
  | entNot : QueryExpr → QueryEntry
  | entField : String → FieldQuery → QueryEntry
end

/-! `executeQuery(data, query, ref)`: `entries.every(…)`.  The `$and`/`$or` entries
`reduce` with `prev && …`/`prev || …` (short-circuit mirrored as in the field level);
a field entry evaluates `executeFieldQuery(value, getCell(data, key))` inside
`try { … } catch { return false }`. -/
mutual
def executeQuery (data : Value) : QueryExpr → Bool
  | .mk entries => execEntries data entries
def execEntries (data : Value) : List QueryEntry → Bool
  | [] => true
  | e :: rest => execEntry data e && execEntries data rest
def execEntry (data : Value) : QueryEntry → Bool
  | .entAnd qs => execQAndFold data true qs
  | .entOr qs => execQOrFold data false qs
  | .entNot q => !executeQuery data q
  | .entField key fq =>
      match (do
        let cell ← getCell data key
        executeFieldQuery fq cell : Except Unit Bool) with
      | .ok b => b
      | .error _ => false
def execQAndFold (data : Value) (acc : Bool) : List QueryExpr → Bool
  | [] => acc
  | q :: rest =>
      if acc then execQAndFold data (executeQuery data q) rest
      else execQAndFold data false rest
def execQOrFold (data : Value) (acc : Bool) : List QueryExpr → Bool
  | [] => acc
  | q :: rest =>
      if acc then execQOrFold data true rest
      else execQOrFold data (executeQuery data q) rest
end

/-! ## The model registry (`model.ts`): fields, `extend`, `format`, `parse`, `create` -/

/-- Result of JS numeric conversion `+s`: an integer or `NaN`.  Shorthand arguments in
practice are decimal digit strings; signs, fractions and exponents are not modelled. -/
inductive JSNum where
  | num : Int → JSNum
  | nan : JSNum
  deriving DecidableEq

/-- `+args[i]`: `+undefined` is `NaN`, `+'' ` is `0`, a digit string is its value, and
any other string is `NaN` (in the modelled fragment). -/
def jsToNumber : Option String → JSNum
  | none => .nan
  | some s =>
      if s = "" then .num 0
      else if s.toList.all (fun c => c.isDigit) then
        .num (s.toList.foldl (fun acc c => acc * 10 + ((c.toNat : Int) - ('0'.toNat : Int))) 0)
      else .nan

/-- A normalised field definition (the record produced by `Field.parse`).  `initial` is
`none` when the property is absent/`undefined` and `some .vnull` when it is `null`;
`isExprField` marks the `{ type: 'expr', expr: source }` form produced for callbacks. -/
structure Field where
  type : String
  length : Option JSNum := none
  nullable : Bool := false
  initial : Option Value := none
  precision : Option JSNum := none
  scale : Option JSNum := none
  legacy : List String := []
  deprecated : Bool := false
  isExprField : Bool := false
  deriving DecidableEq

def Field.number : List String := ["integer", "unsigned", "float", "double", "decimal"]
def Field.string : List String := ["char", "string", "text"]
def Field.boolean : List String := ["boolean"]
def Field.date : List String := ["timestamp", "date", "time"]
def Field.object : List String := ["list", "json"]
def Field.primary : List String := ["primary"]

/-- `\w`: `[A-Za-z0-9_]`. -/
def isWordChar (c : Char) : Bool := c.isAlphanum || c = '_'

/-- `.` in a JS regular expression: any character except a line terminator (the
Unicode line separators are not modelled). -/
def notLineTerm (c : Char) : Bool := c ≠ '\n' && c ≠ '\r'

/-- The shorthand regular expression `/^(\w+)(?:\((.+)\))?$/` on the character list of
the subject: a maximal nonempty run of word characters, optionally followed by a
parenthesised nonempty argument (`.+` is greedy, so the final `)` closes the whole
trailer and the argument may itself contain parentheses).  `\w+` is greedy and `(` is
not a word character, so backtracking never helps: the type capture is exactly the
maximal word prefix. -/
def matchFieldChars (cs : List Char) : Option (List Char × Option (List Char)) :=
  if (cs.takeWhile isWordChar).isEmpty then none
  else
    match cs.drop (cs.takeWhile isWordChar).length with
    | [] => some (cs.takeWhile isWordChar, none)
    | '(' :: more =>
        if more.getLast? = some ')' ∧ more.dropLast ≠ [] ∧ more.dropLast.all notLineTerm
        then some (cs.takeWhile isWordChar, some more.dropLast)
        else none
    | _ => none

/-- The regular-expression match on strings. -/
def matchFieldRegexp (s : String) : Option (String × Option String) :=
  (matchFieldChars s.toList).map fun r => (String.mk r.1, r.2.map String.mk)

/-- The registration-time and runtime faults of the model registry, each a `TypeError`
in the source. -/
inductive ModelError where
  | invalidFieldDefinition : ModelError
  | primaryTypeNeedsAutoInc : ModelError
  | missingIndexField : String → ModelError
  | unknownField : String → ModelError
  deriving DecidableEq

/-- The three runtime shapes a field definition may take in `Field.Extension`. -/
inductive FieldSource where
  | ofString : String → FieldSource
  | ofField : Field → FieldSource
  | ofCallback : FieldSource
  deriving DecidableEq

/-- The default initial value a string shorthand earns by type class: `0` for the
numeric types, `''` for the string types, `[]` for `list`, `{}` for `json`. -/
def Field.defaultInitial (ty : String) : Option Value :=
  if Field.number.contains ty then some (.vnum 0)
  else if Field.string.contains ty then some (.vstr "")
  else if ty = "list" then some (.varr [])
  else if ty = "json" then some (.vobj [])
  else none

/-- `Field.parse`: a callback becomes an `expr` field; an object spreads over
`{ initial: null }`; a string must match the shorthand grammar, receives the default
initial value for its type class, and its arguments become `precision`/`scale` for
`decimal` and `length` otherwise. -/
def Field.parse : FieldSource → Except ModelError Field
  | .ofCallback => .ok { type := "expr", isExprField := true }
  | .ofField f => .ok { f with initial := some (f.initial.getD .vnull) }
  | .ofString s =>
      match matchFieldRegexp s with
      | none => .error .invalidFieldDefinition
      | some (ty, arg) =>
          let args := jsSplit ',' (arg.getD "")
          let f : Field := { type := ty, initial := Field.defaultInitial ty }
          if ty = "decimal" then
            .ok { f with precision := some (jsToNumber (args.get? 0)),
                         scale := some (jsToNumber (args.get? 1)) }
          else
            match args.get? 0 with
            | some a => if a ≠ "" then .ok { f with length := some (jsToNumber (some a)) }
                        else .ok f
            | none => .ok f

/-- cosmokit's `MaybeArray<string>`: a single key or a list of keys. -/
inductive StrOrList where
  | one : String → StrOrList
  | many : List String → StrOrList
  deriving DecidableEq

/-- cosmokit's `makeArray`. -/
def makeArray : StrOrList → List String
  | .one s => [s]
  | .many l => l

/-- The mutable state of a `Model` (its constructor defaults: `autoInc = false`,
`primary = 'id'`, no uniques, no foreign keys, no fields).  A migration entry records
the field names governed by one callback. -/
structure Model where
  name : String
  fields : List (String × Field) := []
  migrations : List (List String) := []
  autoInc : Bool := false
  primary : StrOrList := .one "id"
  unique : List StrOrList := []
  foreign : List (String × String × String) := []
  deriving DecidableEq

/-- The `config` argument of `extend`.  `autoInc` is combined with `||`, so a `false`
(or absent, the default) never clears an already-set flag; `primary` falls back to the
current value when absent or falsy (the empty string). -/
structure ExtendConfig where
  primary : Option StrOrList := none
  autoInc : Bool := false
  unique : List StrOrList := []
  foreign : List (String × String × String) := []
  hasCallback : Bool := false
  deriving DecidableEq

/-- `checkIndex`: every key of the index must have a field definition. -/
def Model.checkIndex (fields : List (String × Field)) (index : StrOrList) :
    Except ModelError Unit :=
  (makeArray index).forM fun k =>
    if (alistLookup fields k).isNone then throw (.missingIndexField k) else pure ()

/-- The primary key after the config merge (`primary || this.primary`; the empty
string is falsy). -/
def Model.extendPrimary (m : Model) (config : ExtendConfig) : StrOrList :=
  match config.primary with
  | some (.one "") => m.primary
  | some p => p
  | none => m.primary

/-- The field table after parsing the extension (every parsed field gets
`deprecated = !!callback`). -/
def Model.extendFields (m : Model) (ext : List (String × FieldSource))
    (config : ExtendConfig) : Except ModelError (List (String × Field)) :=
  ext.foldlM (fun acc (kv : String × FieldSource) => do
      let f ← Field.parse kv.2
      pure (alistSet acc kv.1 { f with deprecated := config.hasCallback })) m.fields

/-- `Model.extend(fields, config)`.  Note the exact order of the source: config merge,
unique de-duplication (`includes` compares composite — array — keys by reference, so
they are always pushed), migration registration, field parsing (every parsed field gets
`deprecated = !!callback`), then the `primary`-type/autoInc consistency check (which
only inspects a single string primary key), then `checkIndex` on the primary and unique
indexes. -/
def Model.extend (m : Model) (ext : List (String × FieldSource)) (config : ExtendConfig) :
    Except ModelError Model := do
  let primary := Model.extendPrimary m config
  let autoInc := config.autoInc || m.autoInc
  let unique := config.unique.foldl
    (fun acc k => match k with
      | .one s => if acc.contains (StrOrList.one s) then acc else acc ++ [StrOrList.one s]
      | .many l => acc ++ [StrOrList.many l]) m.unique
  let foreign := config.foreign.foldl
    (fun acc (kv : String × String × String) => alistSet acc kv.1 kv.2) m.foreign
  let migrations := if config.hasCallback then m.migrations ++ [ext.map (·.1)]
    else m.migrations
  let fields ← Model.extendFields m ext config
  match primary with
    | .one p =>
        if ¬ autoInc ∧ (alistLookup fields p).map (·.type) = some "primary" then
          throw .primaryTypeNeedsAutoInc
        else pure ()
    | .many _ => pure ()
  Model.checkIndex fields primary
  unique.forM (Model.checkIndex fields)
  pure { m with primary, autoInc, unique, foreign, migrations, fields }

/-- `Model.resolveValue`: `null`/`undefined` pass through; a value for a `time`-typed
field has its date component reset to `new Date(0)` and its time-of-day components
copied over with `setHours` (which throws when the value has no `getHours`, i.e. is not
a `Date`); everything else passes through. -/
def Model.resolveValue (m : Model) (key : String) (value : Value) : Except Unit Value :=
  if isNullable value then .ok value
  else if (alistLookup m.fields key).map (·.type) = some "time" then
    match value with
    | .vdate d => .ok (.vdate { epochDate with
        hour := d.hour, minute := d.minute, second := d.second, milli := d.milli })
    | _ => .error ()
  else .ok value

/-! `Model.format(source, strict, prefix, result)`: walk the entries of `source` in
order; a key declared in `fields` stores the value as-is; otherwise a falsy,
non-object-typed or expression value is stored when the key extends a declared field
with a dot (and under `strict` an unknown such key throws); any other (object-typed,
truthy, non-expression) value is recursed into with the extended prefix.
`Object.entries` of an array yields its index keys, so arrays are recursed into
element-wise; dates have no own enumerable entries. -/
mutual
def Model.formatEntries (m : Model) (strict : Bool) :
    List (String × Value) → String → List (String × Value) →
    Except ModelError (List (String × Value))
  | [], _, result => .ok result
  | (k, value) :: rest, prefx, result => do
      let key := prefx ++ k
      let result' ←
        if (m.fields.map (·.1)).contains key then
          .ok (jsSet result key value)
        else if !jsTruthy value || !isObjectTypeof value || isEvalExpr value then
          if (m.fields.map (·.1)).any (fun f => strStartsWith key (f ++ ".")) then
            .ok (jsSet result key value)
          else if strict then .error (.unknownField key)
          else .ok result
        else
          Model.formatValue m strict value (key ++ ".") result
      Model.formatEntries m strict rest prefx result'
def Model.formatValue (m : Model) (strict : Bool) (v : Value) (prefx : String)
    (result : List (String × Value)) : Except ModelError (List (String × Value)) :=
  match v with
  | .vobj kvs => Model.formatEntries m strict kvs prefx result
  | .varr xs => Model.formatArr m strict xs 0 prefx result
  | _ => .ok result
def Model.formatArr (m : Model) (strict : Bool) :
    List Value → Nat → String → List (String × Value) →
    Except ModelError (List (String × Value))
  | [], _, _, result => .ok result
  | value :: rest, i, prefx, result => do
      let key := prefx ++ toString i
      let result' ←
        if (m.fields.map (·.1)).contains key then
          .ok (jsSet result key value)
        else if !jsTruthy value || !isObjectTypeof value || isEvalExpr value then
          if (m.fields.map (·.1)).any (fun f => strStartsWith key (f ++ ".")) then
            .ok (jsSet result key value)
          else if strict then .error (.unknownField key)
          else .ok result
        else
          Model.formatValue m strict value (key ++ ".") result
      Model.formatArr m strict rest (i + 1) prefx result'
end

/-- `Model.format` at the public entry point (`prefix = ''`, `result = {}`). -/
def Model.format (m : Model) (source : Value) (strict : Bool := true) :
    Except ModelError (List (String × Value)) :=
  Model.formatValue m strict source "" []

/-- The dotted-path insertion at the heart of `Model.parse`: walk every segment but the
last with `node = node[segment] ??= {}` (a nullish slot is replaced by a fresh object),
then assign the last segment.  Meeting a primitive on the path makes the eventual
property assignment throw (strict-mode module code); assignment onto a non-plain object
(array, date, expression node) is not modelled and also treated as a fault — no input
considered by the theorems below produces one on a path. -/
def insertPath : List (String × Value) → List String → String → Value →
    Except Unit (List (String × Value))
  | obj, [], last, v => .ok (jsSet obj last v)
  | obj, s :: rest, last, v =>
      match jsLookup obj s with
      | none => do
          let child ← insertPath [] rest last v
          .ok (jsSet obj s (.vobj child))
      | some .vundef => do
          let child ← insertPath [] rest last v
          .ok (jsSet obj s (.vobj child))
      | some .vnull => do
          let child ← insertPath [] rest last v
          .ok (jsSet obj s (.vobj child))
      | some (.vobj kvs) => do
          let child ← insertPath kvs rest last v
          .ok (jsSet obj s (.vobj child))
      | some _ => .error ()

/-- `Model.parse(source)`: regroup every dotted key of `source` into nested objects,
passing each value through `resolveValue` (keyed by the full dotted path). -/
def Model.parse (m : Model) (source : Value) : Except Unit Value := do
  let result ← (entriesOf source).foldlM (fun acc (kv : String × Value) => do
      let segs := jsSplit '.' kv.1
      let value ← m.resolveValue kv.1 kv.2
      insertPath acc segs.dropLast (segs.getLast?.getD "") value) []
  .ok (.vobj result)

/-- cosmokit's `clone`: a deep structural copy.  Values are immutable in this model, so
the copy is the value itself. -/
def cloneValue : Value → Value := id

/-- One step of the seeding loop of `Model.create`: a deprecated field contributes
nothing (`continue`), a field that is not part of the primary key and whose `initial`
is neither absent (`undefined`) nor `null` contributes a clone of its initial value. -/
def Model.seedEntry (pk : List String) (kf : String × Field) : Option (String × Value) :=
  if kf.2.deprecated then none
  else if ¬ pk.contains kf.1 ∧
      ¬ (match kf.2.initial with | none => true | some v => isNullable v) = true then
    some (kf.1, cloneValue (kf.2.initial.getD .vnull))
  else none

/-- The record seeded by `Model.create` before the caller's data is overlaid, in
declaration order. -/
def Model.createSeed (m : Model) : List (String × Value) :=
  m.fields.foldl (fun acc (kf : String × Field) =>
    match Model.seedEntry (makeArray m.primary) kf with
    | some kv => jsSet acc kv.1 kv.2
    | none => acc) []

/-- `Model.create(data)`: seed, overlay `data` by spread, then `parse`. -/
def Model.create (m : Model) (data : List (String × Value)) : Except Unit Value :=
  m.parse (.vobj (jsMerge m.createSeed data))

/-! ## `packages/mongo/src/builder.ts` — query compilation to Mongo filters

A compiled filter document.  `fUndef` is the JS `undefined` that `Builder.query`
returns for a query that can match nothing; entry values are either `null`, a per-key
condition, or (under `$and`/`$or`/`$nor`) an array of sub-filters. -/

mutual
inductive MFilter where
  | fUndef : MFilter
  | fObj : List (String × MFVal) → MFilter
inductive MFVal where
  | fvNull : MFVal
  | fvCond : MCond → MFVal
  | fvList : List MFilter → MFVal
inductive MCond where
  | ceq : Value → MCond
  | cin : List Value → MCond
  | cneNull : MCond
  | cdoc : List MProp → MCond
inductive MProp where
  | pEq : Value → MProp
  | pNe : Value → MProp
  | pIn : List Value → MProp
  | pNin : List Value → MProp
  | pOther : String → Value → MProp
end

/-- The four results `transformFieldQuery` can produce: the literals `false` (match
nothing), `true` (no constraint), `null` (match null/missing), or a condition. -/
inductive TfqRes where
  | tFalse : TfqRes
  | tTrue : TfqRes
  | tNull : TfqRes
  | tCond : MCond → TfqRes

/-- The results of `createFieldFilter`: `false`, `true`, or a filter document. -/
inductive CFF where
  | cfFalse : CFF
  | cfTrue : CFF
  | cfFilter : List (String × MFVal) → CFF

/-! `transformFieldQuery(query, key, filters)` and `createFieldFilter(query, key)`.
The `filters` array is threaded explicitly (the source mutates it by `push`); an early
`return` hands back the entries pushed so far, which no caller observes after a `false`
result.  The `ObjectId` conversion for `primary`-typed columns and the `$el`, `$regex`
and `$regexFor` branches are outside the modelled operator set. -/
mutual
def transformFieldQuery : FieldQuery → String → List MFilter → TfqRes × List MFilter
  | .qval q, _key, filters =>
      match q with
      | .vnum n => (.tCond (.ceq (.vnum n)), filters)
      | .vstr s => (.tCond (.ceq (.vstr s)), filters)
      | .vbool b => (.tCond (.ceq (.vbool b)), filters)
      | .vdate d => (.tCond (.ceq (.vdate d)), filters)
      | .varr xs => if xs.isEmpty then (.tFalse, filters) else (.tCond (.cin xs), filters)
      | .vnull => (.tNull, filters)
      | .vundef => (.tNull, filters)
      | .vobj kvs =>
          -- a plain non-operator object: every property takes the default branch
          -- (`result[prop] = query[prop]`), so the loop reduces to this map
          (if kvs.isEmpty then .tTrue
           else .tCond (.cdoc (kvs.map fun kv => MProp.pOther kv.1 kv.2)), filters)
      | .vexpr _ => (.tTrue, filters)
  | .qops ops, key, filters => tfqProps ops key filters []
termination_by fq _ _ => (sizeOf fq, 0)
def tfqProps : List FieldOp → String → List MFilter → List MProp → TfqRes × List MFilter
  | [], _, filters, result =>
      (if result.isEmpty then .tTrue else .tCond (.cdoc result), filters)
  | op :: rest, key, filters, result =>
      match op with
      | .opAnd qs =>
          match tfqAndItems qs key filters with
          | (false, filters') => (.tFalse, filters')
          | (true, filters') => tfqProps rest key filters' result
      | .opOr qs =>
          if qs.isEmpty then (.tFalse, filters)
          else
            match tfqOrItems qs key [] with
            | (true, _) => tfqProps rest key filters result
            | (false, ors) =>
                tfqProps rest key (filters ++ [MFilter.fObj [("$or", .fvList ors)]]) result
      | .opNot q =>
          match createFieldFilter q key with
          | .cfTrue => (.tFalse, filters)
          | .cfFalse => tfqProps rest key filters result
          | .cfFilter f =>
              tfqProps rest key
                (filters ++ [MFilter.fObj [("$nor", .fvList [MFilter.fObj f])]]) result
      | .opExists b =>
          if b then (.tCond .cneNull, filters) else (.tNull, filters)
      | .opEq v => tfqProps rest key filters (result ++ [.pEq v])
      | .opNe v => tfqProps rest key filters (result ++ [.pNe v])
      | .opIn xs => tfqProps rest key filters (result ++ [.pIn xs])
      | .opNin xs => tfqProps rest key filters (result ++ [.pNin xs])
      | .opOther k v => tfqProps rest key filters (result ++ [.pOther k v])
termination_by ops _ _ _ => (sizeOf ops, 0)
def tfqAndItems : List FieldQuery → String → List MFilter → Bool × List MFilter
  | [], _, filters => (true, filters)
  | item :: rest, key, filters =>
      match createFieldFilter item key with
      | .cfFalse => (false, filters)
      | .cfTrue => tfqAndItems rest key filters
      | .cfFilter f => tfqAndItems rest key (filters ++ [MFilter.fObj f])
termination_by items _ _ => (sizeOf items, 0)
def tfqOrItems : List FieldQuery → String → List MFilter → Bool × List MFilter
  | [], _, acc => (false, acc)
  | item :: rest, key, acc =>
      match createFieldFilter item key with
      | .cfTrue => (true, acc)
      | .cfFalse => tfqOrItems rest key acc
      | .cfFilter f => tfqOrItems rest key (acc ++ [MFilter.fObj f])
termination_by items _ _ => (sizeOf items, 0)
def createFieldFilter (query : FieldQuery) (key : String) : CFF :=
  match transformFieldQuery query key [] with
  | (.tFalse, _) => .cfFalse
  | (child, filters) =>
      let result : List (String × MFVal) :=
        match child with
        | .tTrue => []
        | .tNull => [(key, .fvNull)]
        | .tCond c => [(key, .fvCond c)]
        | .tFalse => []
      let result := if filters.isEmpty then result
        else alistSet result "$and" (.fvList filters)
      if result.isEmpty then .cfTrue else .cfFilter result
termination_by (sizeOf query, 1)
end

/-- The builder state that `Builder.query` reads: the virtual key of the main table
(mapped to `_id`). -/
structure BuilderCfg where
  virtualKey : Option String := none
  deriving DecidableEq

/-- `getActualKey`. -/
def getActualKey (cfg : BuilderCfg) (key : String) : String :=
  if some key = cfg.virtualKey then "_id" else key

/-! `Builder.query(sel, query)`.  `{$and: []}` contributes nothing; `{$or: []}` makes
the whole call return `undefined`; `$not` compiles to `$nor` when the sub-query
compiles; a field entry goes through `transformFieldQuery` with the `additional`
array threaded through, a `false` result aborting with `undefined`.  At the end the
`additional` filters are appended to the `$and` entry (`(filter.$and ||= []).push`).
All modelled field-query shapes are flat, so the `flatten` preprocessing of nested
sub-records is the identity on them. -/
mutual
def builderQuery (cfg : BuilderCfg) : QueryExpr → MFilter
  | .mk entries => builderQueryEntries cfg entries [] []
def builderQueryEntries (cfg : BuilderCfg) :
    List QueryEntry → List (String × MFVal) → List MFilter → MFilter
  | [], filter, additional =>
      if additional.isEmpty then .fObj filter
      else match alistLookup filter "$and" with
        | some (.fvList l) => .fObj (alistSet filter "$and" (.fvList (l ++ additional)))
        | _ => .fObj (alistSet filter "$and" (.fvList additional))
  | e :: rest, filter, additional =>
      match e with
      | .entAnd qs =>
          if qs.isEmpty then builderQueryEntries cfg rest filter additional
          else builderQueryEntries cfg rest
            (alistSet filter "$and" (.fvList (builderQueryList cfg qs))) additional
      | .entOr qs =>
          if qs.isEmpty then .fUndef
          else builderQueryEntries cfg rest
            (alistSet filter "$or" (.fvList (builderQueryList cfg qs))) additional
      | .entNot q =>
          match builderQuery cfg q with
          | .fUndef => builderQueryEntries cfg rest filter additional
          | .fObj f => builderQueryEntries cfg rest
              (alistSet filter "$nor" (.fvList [MFilter.fObj f])) additional
      | .entField key fq =>
          let actualKey := getActualKey cfg key
          match transformFieldQuery fq actualKey additional with
          | (.tFalse, _) => .fUndef
          | (.tTrue, additional') => builderQueryEntries cfg rest filter additional'
          | (.tNull, additional') =>
              builderQueryEntries cfg rest (alistSet filter actualKey .fvNull) additional'
          | (.tCond c, additional') =>
              builderQueryEntries cfg rest (alistSet filter actualKey (.fvCond c)) additional'
def builderQueryList (cfg : BuilderCfg) : List QueryExpr → List MFilter
  | [] => []
  | q :: rest => builderQuery cfg q :: builderQueryList cfg rest
end

/-! Modelled from the spec: the matching semantics of the produced Mongo filter
documents ("`query({$or: []})` matches zero rows; `query({$and: []})` matches all
rows").  `Builder.select` pushes no `$match` stage for an empty filter document, so an
empty document matches every row, and it aborts the pipeline when `Builder.query`
returns `undefined`, so an `fUndef` filter selects no rows.  Per-entry matching follows
the Mongo query language on the modelled fragment; an operator outside the fragment
(`pOther`) is treated as satisfied. -/
mutual
def mongoFilterMatches : MFilter → Value → Bool
  | .fUndef, _ => false
  | .fObj entries, row => mongoEntriesMatch entries row
def mongoEntriesMatch : List (String × MFVal) → Value → Bool
  | [], _ => true
  | (k, v) :: rest, row => mongoEntryMatches k v row && mongoEntriesMatch rest row
def mongoEntryMatches : String → MFVal → Value → Bool
  | "$and", .fvList fs, row => mongoAllMatch fs row
  | "$or", .fvList fs, row => mongoAnyMatch fs row
  | "$nor", .fvList fs, row => !mongoAnyMatch fs row
  | _, .fvList _, _ => false
  | k, .fvNull, row =>
      match getCell row k with
      | .ok v => isNullable v
      | .error _ => true
  | k, .fvCond c, row =>
      match getCell row k with
      | .ok v => mongoCondMatches c v
      | .error _ => mongoCondMatches c .vundef
def mongoAllMatch : List MFilter → Value → Bool
  | [], _ => true
  | f :: rest, row => mongoFilterMatches f row && mongoAllMatch rest row
def mongoAnyMatch : List MFilter → Value → Bool
  | [], _ => false
  | f :: rest, row => mongoFilterMatches f row || mongoAnyMatch rest row
def mongoCondMatches : MCond → Value → Bool
  | .ceq q, v => jsStrictEq q v
  | .cin xs, v => xs.any (jsStrictEq · v)
  | .cneNull, v => !isNullable v
  | .cdoc props, v => mongoPropsMatch props v
def mongoPropsMatch : List MProp → Value → Bool
  | [], _ => true
  | p :: rest, v =>
      (match p with
       | .pEq q => jsStrictEq q v
       | .pNe q => !jsStrictEq q v
       | .pIn xs => xs.any (jsStrictEq · v)
       | .pNin xs => !xs.any (jsStrictEq · v)
       | .pOther _ _ => true) && mongoPropsMatch rest v
end

/-- Modelled from the spec: the rows a selection with the given compiled filter
retrieves from a data set. -/
def mongoSelectRows (f : MFilter) (rows : List Value) : List Value :=
  match f with
  | .fUndef => []
  | .fObj entries => rows.filter (fun row => mongoEntriesMatch entries row)

/-! ## The polymorphic `$and` eval operator (`Builder.evalOperators.$and`) -/

/-- The four shapes of Mongo aggregation expression that the `$and` operator can
compile to, plus literals (on which `Builder.eval` is the identity): a logical `$and`,
a native `$bitAnd` (server version ≥ 7), a `$function` whose body is
`(...args) => args.reduce((prev, curr) => prev & curr)`, and the
`$toLong`-of-`BigInt`-strings fallback. -/
inductive MongoEvalExpr where
  | elit : Value → MongoEvalExpr
  | eAnd : List MongoEvalExpr → MongoEvalExpr
  | eBitAnd : List MongoEvalExpr → MongoEvalExpr
  | eFnAnd : List MongoEvalExpr → MongoEvalExpr
  | eToLongAnd : List MongoEvalExpr → MongoEvalExpr

/-- Modelled from the spec: the result type the core `Eval` layer (its `eval.ts` is not
part of the sources here) annotates an `$and` expression with — "when every argument's
type is boolean, logical; otherwise bitwise over the widest integer width". -/
def andResultType (argTypes : List String) : String :=
  if argTypes.all (fun t => Field.boolean.contains t) then "boolean" else "integer"

/-- The branch dispatch of `evalOperators.$and` on the expression's annotated type
(`Type.fromTerm(this.evalExpr, Type.Boolean)`) and the driver version. -/
def evalAndOperator (ty : String) (version : Int) (args : List MongoEvalExpr) :
    MongoEvalExpr :=
  if Field.boolean.contains ty then .eAnd args
  else if 7 ≤ version then .eBitAnd args
  else if Field.number.contains ty then .eFnAnd args
  else .eToLongAnd args

/-- JS `ToInt32`. -/
def toInt32 (n : Int) : Int := (n + 2147483648) % 4294967296 - 2147483648

/-- The JS bitwise AND `prev & curr`: both operands converted by `ToInt32`, then a
two's-complement AND (the result is again a 32-bit value). -/
def jsBitAnd32 (a b : Int) : Int := Int.land (toInt32 a) (toInt32 b)

/-! Modelled from the spec (the Mongo server's evaluation of the emitted operators):
`$and` is the logical conjunction of its arguments' truthiness; `$bitAnd` is the
bitwise AND of its integer arguments; the `$function` body is the source's own
JavaScript `args.reduce((prev, curr) => prev & curr)`; the `BigInt` fallback reduces
with arbitrary-precision AND.  A `reduce` over an empty argument list throws, and
non-integer arguments to the bitwise forms are outside the model (`none`). -/
mutual
def mongoEvalExpr : MongoEvalExpr → Option Value
  | .elit v => some v
  | .eAnd es => (mongoEvalBools es).map fun bs => Value.vbool (bs.all id)
  | .eBitAnd es => do
      let ns ← mongoEvalInts es
      match ns with
      | [] => none
      | x :: xs => some (.vnum (xs.foldl Int.land x))
  | .eFnAnd es => do
      let ns ← mongoEvalInts es
      match ns with
      | [] => none
      | x :: xs => some (.vnum (xs.foldl jsBitAnd32 x))
  | .eToLongAnd es => do
      let ns ← mongoEvalInts es
      match ns with
      | [] => none
      | x :: xs => some (.vnum (xs.foldl Int.land x))
def mongoEvalBools : List MongoEvalExpr → Option (List Bool)
  | [] => some []
  | e :: rest => do
      let v ← mongoEvalExpr e
      let bs ← mongoEvalBools rest
      some (jsTruthy v :: bs)
def mongoEvalInts : List MongoEvalExpr → Option (List Int)
  | [] => some []
  | e :: rest => do
      let v ← mongoEvalExpr e
      match v with
      | .vnum n => do
          let ns ← mongoEvalInts rest
          some (n :: ns)
      | _ => none
end

/-! ## `Builder.toUpdateExpr` and the empty-object guard of `transformEvalExpr` -/

/-! The `Type` objects of the core type system: a type tag with an optional inner
structure — for `json` either a record of subfield types or, when `array` is set, the
element type. -/
mutual
inductive TypeT where
  | mk : String → Option TInner → Bool → TypeT
inductive TInner where
  | iobj : List (String × TypeT) → TInner
  | ielem : TypeT → TInner
end

def TypeT.type : TypeT → String
  | .mk t _ _ => t

def TypeT.inner : TypeT → Option TInner
  | .mk _ i _ => i

def TypeT.array : TypeT → Bool
  | .mk _ _ a => a

/-- `Type.isArray`. -/
def typeIsArray (t : TypeT) : Bool := t.type = "json" && t.array

/-- `Type.getInner` for a dot-free key: return the record entry when present
(a `Type` object is truthy), otherwise rebuild an object type from the entries whose
keys extend `key` with a dot, stripping the prefix (`Type.Object` leaves `inner`
undefined when no key matches).  On an element-type `inner` the record lookup finds
nothing and the rebuild collects nothing. -/
def typeGetInnerFlat (t : Option TypeT) (k : String) : Option TypeT :=
  match t with
  | none => none
  | some ty =>
      match ty.inner with
      | none => none
      | some (.ielem _) => some (TypeT.mk "json" none false)
      | some (.iobj kvs) =>
          match alistLookup kvs k with
          | some sub => some sub
          | none =>
              let stripped := (kvs.filter (fun kv => strStartsWith kv.1 (k ++ "."))).map
                fun kv => (kv.1.drop (k.length + 1), kv.2)
              some (if stripped.isEmpty then TypeT.mk "json" none false
                    else TypeT.mk "json" (some (.iobj stripped)) false)

/-- `Type.getInner(type, key)`: nothing without an inner structure; a `null` key on an
array type yields the element type; a key present verbatim in the record wins even when
dotted; otherwise a dotted key reduces `getInner` over its segments; otherwise the
prefix rebuild of `typeGetInnerFlat`. -/
def typeGetInner (t : Option TypeT) (key : Option String) : Option TypeT :=
  match t with
  | none => none
  | some ty =>
      match ty.inner with
      | none => none
      | some inner =>
          match key with
          | none =>
              if typeIsArray ty then
                match inner with
                | .ielem el => some el
                | .iobj _ => none
              else none
          | some k =>
              match inner with
              | .iobj kvs =>
                  match alistLookup kvs k with
                  | some sub => some sub
                  | none =>
                      if k.toList.contains '.' then
                        (jsSplit '.' k).foldl typeGetInnerFlat (some ty)
                      else typeGetInnerFlat (some ty) k
              | .ielem _ =>
                  if k.toList.contains '.' then
                    (jsSplit '.' k).foldl typeGetInnerFlat (some ty)
                  else typeGetInnerFlat (some ty) k

/-- The update expressions `toUpdateExpr` produces: a value passed through, an explicit
`{$literal: …}` wrapper, element-wise and property-wise recursion results, and the
opaque results of `this.eval(value)` and `this.dump(value, type)` (driver-dependent,
carried symbolically). -/
inductive UExpr where
  | uval : Value → UExpr
  | uliteral : Value → UExpr
  | uarr : List UExpr → UExpr
  | uobj : List (String × UExpr) → UExpr
  | ueval : Value → UExpr
  | udump : Value → Option TypeT → UExpr

/-! `Builder.toUpdateExpr(value, type, root)`.  Branch order as in the source:
nullable values pass through; an eval expression is evaluated at the root and dumped
below it; a `$`-prefixed string for a string-typed or untyped slot is wrapped in
`$literal`; an object-typed value with no keys for a json-typed or untyped slot is
wrapped in `$literal`; without a type the value is dumped; an array value for an array
type recurses element-wise over the element type; a type with inner structure recurses
over the value's entries with `Type.getInner`; otherwise the value is dumped. -/
mutual
def toUpdateExpr (value : Value) (type : Option TypeT) (root : Bool) : UExpr :=
  -- `type?.type === t || !type`
  let typeIsOrAbsent : String → Bool := fun tag =>
    match type with
    | none => true
    | some ty => ty.type = tag
  if isNullable value then .uval value
  else if isEvalExpr value then (if root then .ueval value else .udump value type)
  else if typeIsOrAbsent "string" &&
      (match value with | .vstr s => strStartsWith s "$" | _ => false) then
    .uliteral value
  else if typeIsOrAbsent "json" &&
      isObjectTypeof value && (entriesOf value).isEmpty then
    .uliteral value
  else
    match type with
    | none => .udump value none
    | some ty =>
        if typeIsArray ty && (match value with | .varr _ => true | _ => false) then
          match value with
          | .varr xs =>
              .uarr (toUpdateList xs
                (match ty.inner with | some (.ielem el) => some el | _ => none))
          | _ => .udump value (some ty)
        else if ty.inner.isSome then
          match value with
          | .vobj kvs => .uobj (toUpdateProps kvs ty)
          | .varr xs => .uobj (toUpdateArrProps xs 0 ty)
          | _ => .uobj []
        else .udump value (some ty)
def toUpdateList : List Value → Option TypeT → List UExpr
  | [], _ => []
  | v :: rest, elemTy => toUpdateExpr v elemTy false :: toUpdateList rest elemTy
def toUpdateProps : List (String × Value) → TypeT → List (String × UExpr)
  | [], _ => []
  | (k, v) :: rest, ty =>
      (k, toUpdateExpr v (typeGetInner (some ty) (some k)) false) :: toUpdateProps rest ty
def toUpdateArrProps : List Value → Nat → TypeT → List (String × UExpr)
  | [], _, _ => []
  | v :: rest, i, ty =>
      (toString i, toUpdateExpr v (typeGetInner (some ty) (some (toString i))) false) ::
        toUpdateArrProps rest (i + 1) ty
end

/-- The guard at the head of `Builder.transformEvalExpr`: an expression object with no
keys compiles to an explicit `{$literal: …}` (Mongo rejects an empty object in `$set`
before 6.1.0/7.0.0); `rest` stands for the remainder of the function (the operator
dispatch), which only runs on non-empty expressions. -/
def transformEvalExpr (rest : Value → UExpr) (expr : Value) : UExpr :=
  if (entriesOf expr).isEmpty then .uliteral expr else rest expr

/-! ## Specification-side definitions

The following definitions are written from the specification's words, not from the
code; the refinement theorems below compare the embedded code against them. -/

/-- From the spec, the string-shorthand grammar `TYPE | TYPE(arg) | TYPE(precision,scale)`:
a nonempty word-character type name, optionally followed by a nonempty parenthesised
argument string (a single-line argument; a comma splits it into the two-argument
form).  Stated on the character list of the shorthand. -/
def ShorthandGrammar (s : String) : Prop :=
  (s.toList ≠ [] ∧ ∀ c ∈ s.toList, isWordChar c) ∨
  (∃ ty arg : List Char, ty ≠ [] ∧ (∀ c ∈ ty, isWordChar c) ∧ arg ≠ [] ∧
    (∀ c ∈ arg, notLineTerm c = true) ∧ s.toList = ty ++ '(' :: (arg ++ [')']))

/-! From the spec, "`r` restricted to declared fields": walk the record, keep a value
whole when its dotted path is a declared field, recurse through plain-object values,
and keep any other value exactly when its dotted path extends a declared field with a
dot.  The result is the flat dotted-key projection of `r` onto the model's fields. -/
mutual
def specRestrictFlat (m : Model) : List (String × Value) → String → List (String × Value)
  | [], _ => []
  | (k, v) :: rest, prefx =>
      specRestrictVal m v (prefx ++ k) ++ specRestrictFlat m rest prefx
def specRestrictVal (m : Model) (v : Value) (key : String) : List (String × Value) :=
  if (m.fields.map (·.1)).contains key then [(key, v)]
  else match v with
  | .vobj kvs => specRestrictFlat m kvs (key ++ ".")
  | _ =>
      if (m.fields.map (·.1)).any (fun f => strStartsWith key (f ++ ".")) then [(key, v)]
      else []
end

/-- From the spec, "with dotted nested paths regrouped into nested objects": group a
flat dotted-key record into nested objects, walking each key's segments and extending
along the way (a non-object met on the way is superseded by a fresh object). -/
def specInsert : List (String × Value) → List String → String → Value →
    List (String × Value)
  | obj, [], last, v => jsSet obj last v
  | obj, s :: rest, last, v =>
      match jsLookup obj s with
      | some (.vobj kvs) => jsSet obj s (.vobj (specInsert kvs rest last v))
      | _ => jsSet obj s (.vobj (specInsert [] rest last v))

/-- Regrouping of a whole flat record. -/
def specRegroup (flat : List (String × Value)) : Value :=
  .vobj (flat.foldl (fun acc (kv : String × Value) =>
    let segs := jsSplit '.' kv.1
    specInsert acc segs.dropLast (segs.getLast?.getD "") kv.2) [])

/-- From the spec, the restriction of a record to a model's declared fields with the
nested paths regrouped. -/
def specRestrict (m : Model) (r : List (String × Value)) : Value :=
  specRegroup (specRestrictFlat m r "")

/-- The model declares no `time`-typed field (under which `resolveValue` is the
identity). -/
def noTimeFields (m : Model) : Bool :=
  m.fields.all (fun kf => kf.2.type ≠ "time")

/-! Compatibility of a record with `format`'s recursion: every value met at an
undeclared key while walking is either a plain object (recursed into) or a non-object
(an array would be decomposed into index keys and a date dropped by the code, where
the restriction keeps them whole). -/
mutual
def formatCompat (m : Model) : List (String × Value) → String → Bool
  | [], _ => true
  | (k, v) :: rest, prefx =>
      formatCompatVal m v (prefx ++ k) && formatCompat m rest prefx
def formatCompatVal (m : Model) (v : Value) (key : String) : Bool :=
  if (m.fields.map (·.1)).contains key then true
  else match v with
  | .vobj kvs => formatCompat m kvs (key ++ ".")
  | .varr _ => false
  | .vdate _ => false
  | _ => true
end

/-- Pairwise incomparability of the dotted keys of a flat record, stated on segment
lists: no key equals or extends another.  This is the coherence a flat record needs
for regrouping to build plain nested objects. -/
def segsIncomparable (a b : List String) : Bool := !a.isPrefixOf b && !b.isPrefixOf a

/-- All keys of the list pairwise incomparable. -/
def keysCoherent (keys : List String) : Bool :=
  match keys with
  | [] => true
  | k :: rest =>
      rest.all (fun k2 => segsIncomparable (jsSplit '.' k) (jsSplit '.' k2)) &&
        keysCoherent rest

/-- The traversal check under which the strict-mode insertion `insertPath` cannot
throw: walking the segments meets only absent, nullish or plain-object slots. -/
def walkOk : List (String × Value) → List String → Bool
  | _, [] => true
  | obj, s :: rest =>
      match jsLookup obj s with
      | none => true
      | some .vundef => true
      | some .vnull => true
      | some (.vobj kvs) => walkOk kvs rest
      | some _ => false

/-- The composition `M.parse(M.format(r, strict = false))` of the round-trip claim
(when `format` throws, `parse` is never reached and the exception propagates). -/
def roundTrip (m : Model) (r : Value) : Except Unit Value :=
  match m.format r false with
  | .ok flat => m.parse (.vobj flat)
  | .error _ => .error ()

instance exceptDecEq {e a : Type} [DecidableEq e] [DecidableEq a] :
    DecidableEq (Except e a) := fun x y =>
  match x, y with
  | .error e1, .error e2 =>
      if h : e1 = e2 then isTrue (by rw [h])
      else isFalse (fun hh => h (by injection hh))
  | .error _, .ok _ => isFalse (fun hh => Except.noConfusion hh)
  | .ok _, .error _ => isFalse (fun hh => Except.noConfusion hh)
  | .ok a1, .ok a2 =>
      if h : a1 = a2 then isTrue (by rw [h])
      else isFalse (fun hh => h (by injection hh))

/-! ## Shared lemmas -/

theorem alistSet_fresh {α : Type} (l : List (String × α)) (k : String) (v : α)
    (h : k ∉ l.map (·.1)) : alistSet l k v = l ++ [(k, v)] := by
  induction l with
  | nil => rfl
  | cons a rest ih =>
      simp only [List.map_cons, List.mem_cons] at h
      push_neg at h
      simp [alistSet, Ne.symm h.1, ih h.2]

theorem alistLookup_append_left {α : Type} (l₁ l₂ : List (String × α)) (k : String)
    (h : k ∈ l₁.map (·.1)) : alistLookup (l₁ ++ l₂) k = alistLookup l₁ k := by
  induction l₁ with
  | nil => simp at h
  | cons a rest ih =>
      simp only [List.map_cons, List.mem_cons] at h
      by_cases hk : a.1 = k
      · simp [alistLookup, hk]
      · rcases h with h | h
        · exact absurd h.symm hk
        · simp [alistLookup, hk, ih h]

theorem alistLookup_append_right {α : Type} (l₁ l₂ : List (String × α)) (k : String)
    (h : k ∉ l₁.map (·.1)) : alistLookup (l₁ ++ l₂) k = alistLookup l₂ k := by
  induction l₁ with
  | nil => rfl
  | cons a rest ih =>
      simp only [List.map_cons, List.mem_cons] at h
      push_neg at h
      simp [alistLookup, Ne.symm h.1, ih h.2]

theorem alistLookup_eq_some_of_mem {α : Type} (l : List (String × α)) (k : String) (v : α)
    (hnd : (l.map (·.1)).Nodup) (hm : (k, v) ∈ l) : alistLookup l k = some v := by
  induction l with
  | nil => simp at hm
  | cons a rest ih =>
      simp only [List.map_cons, List.nodup_cons] at hnd
      rcases List.mem_cons.mp hm with h | h
      · subst h; simp [alistLookup]
      · have hk : a.1 ≠ k := by
          intro he
          exact hnd.1 (he ▸ (List.mem_map.mpr ⟨(k, v), h, rfl⟩))
        simp [alistLookup, hk, ih hnd.2 h]

theorem alistLookup_mem_of_eq_some {α : Type} (l : List (String × α)) (k : String) (v : α)
    (h : alistLookup l k = some v) : (k, v) ∈ l := by
  induction l with
  | nil => simp [alistLookup] at h
  | cons a rest ih =>
      by_cases hk : a.1 = k
      · simp [alistLookup, hk] at h
        exact List.mem_cons.mpr (Or.inl (by cases a; simp_all))
      · simp [alistLookup, hk] at h
        exact List.mem_cons.mpr (Or.inr (ih h))

theorem drop_length_takeWhile {α : Type} (p : α → Bool) (l : List α) :
    l.drop (l.takeWhile p).length = l.dropWhile p := by
  induction l with
  | nil => rfl
  | cons a l ih =>
      by_cases h : p a
      · simp [List.takeWhile_cons, List.dropWhile_cons, h, ih]
      · simp [List.takeWhile_cons, List.dropWhile_cons, h]

/-! ## Claim theorems -/

/-- C4: for every data set, the top-level query `{$or: []}` matches zero rows and the
top-level query `{$and: []}` matches all rows — both under the portable evaluator
(`executeQuery`) and under the Mongo filter compiler (`Builder.query` followed by the
selection of matching rows). -/
theorem claim_C4 (cfg : BuilderCfg) (rows : List Value) :
    mongoSelectRows (builderQuery cfg (.mk [.entOr []])) rows = [] ∧
    mongoSelectRows (builderQuery cfg (.mk [.entAnd []])) rows = rows ∧
    rows.filter (fun r => executeQuery r (.mk [.entOr []])) = [] ∧
    rows.filter (fun r => executeQuery r (.mk [.entAnd []])) = rows := by
  refine ⟨?_, ?_, ?_, ?_⟩
  · simp [builderQuery, builderQueryEntries, mongoSelectRows]
  · simp [builderQuery, builderQueryEntries, mongoSelectRows, mongoEntriesMatch]
  · simp [executeQuery, execEntries, execEntry, execQOrFold]
  · simp [executeQuery, execEntries, execEntry, execQAndFold]

/-- C5: the field operator `$in` matches a datum exactly when it is a member of the
given array (membership in the SameValueZero sense of `Array.prototype.includes`) and
`$nin` exactly when it is not; in particular `$in` with the empty array matches nothing
and `$nin` with the empty array matches every datum; in the Mongo compiler the empty
array shorthand compiles to the match-nothing filter and a non-empty one to `$in`. -/
theorem claim_C5 (v : Value) (xs : List Value) :
    (executeFieldQuery (.qops [.opIn xs]) v = .ok true ↔ ∃ x ∈ xs, jsStrictEq x v = true) ∧
    (executeFieldQuery (.qops [.opNin xs]) v = .ok true ↔ ¬ ∃ x ∈ xs, jsStrictEq x v = true) ∧
    executeFieldQuery (.qops [.opIn []]) v = .ok false ∧
    executeFieldQuery (.qops [.opNin []]) v = .ok true ∧
    (∀ key filters, transformFieldQuery (.qval (.varr [])) key filters = (.tFalse, filters)) ∧
    (∀ key filters, xs ≠ [] →
      transformFieldQuery (.qval (.varr xs)) key filters = (.tCond (.cin xs), filters)) := by
  have hin : executeFieldQuery (.qops [.opIn xs]) v
      = .ok (xs.any (fun x => jsStrictEq x v)) := by
    cases hx : xs.any (fun x => jsStrictEq x v) <;>
      simp [executeFieldQuery, execFieldOps, execFieldOp, Bind.bind, Except.bind, hx]
  have hnin : executeFieldQuery (.qops [.opNin xs]) v
      = .ok (!xs.any (fun x => jsStrictEq x v)) := by
    cases hx : xs.any (fun x => jsStrictEq x v) <;>
      simp [executeFieldQuery, execFieldOps, execFieldOp, Bind.bind, Except.bind, hx]
  refine ⟨?_, ?_, ?_, ?_, ?_, ?_⟩
  · rw [hin]
    simp [List.any_eq_true]
  · rw [hnin]
    simp [List.any_eq_true]
  · simp [executeFieldQuery, execFieldOps, execFieldOp, Bind.bind, Except.bind]
  · simp [executeFieldQuery, execFieldOps, execFieldOp, Bind.bind, Except.bind]
  · intro key filters; simp [transformFieldQuery]
  · intro key filters h; simp [transformFieldQuery, h]

/-- C10: a top-level field query whose dotted key path cannot be traversed in the row
(`getCell` throws because an intermediate segment is missing or null) evaluates that
conjunct to `false` instead of propagating the exception, so the whole query is
`false`; `executeQuery` is total on such inputs (it is a total function here). -/
theorem claim_C10 (data : Value) (entries : List QueryEntry) (key : String)
    (fq : FieldQuery) (hm : QueryEntry.entField key fq ∈ entries)
    (hc : getCell data key = .error ()) :
    executeQuery data (.mk entries) = false := by
  have hent : execEntry data (.entField key fq) = false := by
    simp [execEntry, hc, Bind.bind, Except.bind]
  have hall : ∀ es, QueryEntry.entField key fq ∈ es → execEntries data es = false := by
    intro es
    induction es with
    | nil => intro h; simp at h
    | cons e rest ih =>
        intro h
        rcases List.mem_cons.mp h with h | h
        · subst h; simp [execEntries, hent]
        · simp [execEntries, ih h]
  simp [executeQuery, hall entries hm]

/-- C10 witness: a concrete row `{a: null}` against the query `{"a.b": 1}`. -/
theorem claim_C10_witness :
    getCell (.vobj [("a", .vnull)]) "a.b" = .error () ∧
    executeQuery (.vobj [("a", .vnull)])
      (.mk [.entField "a.b" (.qval (.vnum 1))]) = false := by
  refine ⟨by decide, ?_⟩
  exact claim_C10 _ _ "a.b" (.qval (.vnum 1)) (List.mem_singleton.mpr rfl) (by decide)

/-- C9: an empty object value in an update expression, for a json-typed or untyped
slot, is wrapped by the Mongo builder as an explicit `{$literal: {}}` (so that empty
objects survive `$set`), both in `toUpdateExpr` and in the guard at the head of
`transformEvalExpr`. -/
theorem claim_C9 (type : Option TypeT) (root : Bool) (rest : Value → UExpr)
    (h : type = none ∨ ∃ ty, type = some ty ∧ ty.type = "json") :
    toUpdateExpr (.vobj []) type root = .uliteral (.vobj []) ∧
    transformEvalExpr rest (.vobj []) = .uliteral (.vobj []) := by
  constructor
  · rcases h with h | ⟨ty, h, hty⟩ <;> subst h
    · simp [toUpdateExpr, isNullable, isEvalExpr, isObjectTypeof, entriesOf, strStartsWith]
    · simp [toUpdateExpr, isNullable, isEvalExpr, isObjectTypeof, entriesOf, strStartsWith, hty]
  · simp [transformEvalExpr, entriesOf]

/-- C9 witness: a json-typed slot and an untyped slot, at the root. -/
theorem claim_C9_witness :
    toUpdateExpr (.vobj []) (some (.mk "json" none false)) true = .uliteral (.vobj []) ∧
    toUpdateExpr (.vobj []) none false = .uliteral (.vobj []) := by
  refine ⟨(claim_C9 (some (.mk "json" none false)) true (fun _ => .uval .vnull) ?_).1,
    (claim_C9 none false (fun _ => .uval .vnull) ?_).1⟩
  · exact Or.inr ⟨_, rfl, rfl⟩
  · exact Or.inl rfl

/-- C3: the `$and` eval operator is polymorphic — an expression whose annotated type is
boolean (the annotation every-argument-boolean produces) compiles to the logical `$and`
form, which evaluates `true, false` to `false`; otherwise the annotation is integral
and the operator compiles to the bitwise forms (`$bitAnd` on server ≥ 7, the
`$function` with the source's `reduce((prev, curr) => prev & curr)` body below 7), and
`$.and(flags, 6)` with `flags = 5` evaluates to `4` under either form. -/
theorem claim_C3 (tys : List String) (version : Int) (args : List MongoEvalExpr) :
    (tys.all (fun t => Field.boolean.contains t) = true →
      evalAndOperator (andResultType tys) version args = .eAnd args) ∧
    (tys.all (fun t => Field.boolean.contains t) = false → 7 ≤ version →
      evalAndOperator (andResultType tys) version args = .eBitAnd args) ∧
    (tys.all (fun t => Field.boolean.contains t) = false → version < 7 →
      evalAndOperator (andResultType tys) version args = .eFnAnd args) ∧
    mongoEvalExpr (.eAnd [.elit (.vbool true), .elit (.vbool false)]) = some (.vbool false) ∧
    mongoEvalExpr (.eBitAnd [.elit (.vnum 5), .elit (.vnum 6)]) = some (.vnum 4) ∧
    mongoEvalExpr (.eFnAnd [.elit (.vnum 5), .elit (.vnum 6)]) = some (.vnum 4) := by
  refine ⟨?_, ?_, ?_, ?_, ?_, ?_⟩
  · intro h
    have ht : andResultType tys = "boolean" := by
      unfold andResultType; rw [h]; simp
    rw [ht]
    simp [evalAndOperator, Field.boolean]
  · intro h hv
    have ht : andResultType tys = "integer" := by
      unfold andResultType; rw [h]; simp
    rw [ht]
    simp [evalAndOperator, Field.boolean, hv]
  · intro h hv
    have ht : andResultType tys = "integer" := by
      unfold andResultType; rw [h]; simp
    have h7 : ¬ (7 : Int) ≤ version := by omega
    rw [ht]
    simp [evalAndOperator, Field.boolean, Field.number, h7]
  · decide
  · decide
  · decide

/-- C3 witness: boolean types dispatch logically, integer types bitwise, at server
versions 7 and 6. -/
theorem claim_C3_witness :
    evalAndOperator (andResultType ["boolean", "boolean"]) 7
      [.elit (.vbool true), .elit (.vbool false)]
      = .eAnd [.elit (.vbool true), .elit (.vbool false)] ∧
    evalAndOperator (andResultType ["integer"]) 7 [.elit (.vnum 5), .elit (.vnum 6)]
      = .eBitAnd [.elit (.vnum 5), .elit (.vnum 6)] ∧
    evalAndOperator (andResultType ["integer"]) 6 [.elit (.vnum 5), .elit (.vnum 6)]
      = .eFnAnd [.elit (.vnum 5), .elit (.vnum 6)] := by
  refine ⟨(claim_C3 ["boolean", "boolean"] 7 _).1 (by decide),
    (claim_C3 ["integer"] 7 _).2.1 (by decide) (by decide),
    (claim_C3 ["integer"] 6 _).2.2.1 (by decide) (by decide)⟩

/-- C8 counterexample: the claim quantifies over every non-null value, but a non-`Date`
value supplied for a `time`-typed field makes `resolveValue` throw
(`value.getHours is not a function`) instead of returning a `Date`. -/
theorem claim_C8_counterexample :
    Model.resolveValue { name := "m", fields := [("t", { type := "time" })] } "t" (.vnum 5)
      = .error () := by
  decide

/-- C8 (amended to non-null `Date` values): `resolveValue` maps a `Date` supplied for a
`time`-typed field to a `Date` whose date component is reset to the epoch
(`new Date(0)`, day index `0`) and whose hours, minutes, seconds and milliseconds are
those of the value; `null`/`undefined` values and values for non-`time` fields pass
through unchanged. -/
theorem claim_C8_amended (m : Model) (key : String) (v : Value) (d : JSDate) :
    (isNullable v = true → m.resolveValue key v = .ok v) ∧
    ((alistLookup m.fields key).map (·.type) = some "time" → v = .vdate d →
      m.resolveValue key v = .ok (.vdate ⟨0, d.hour, d.minute, d.second, d.milli⟩)) ∧
    ((alistLookup m.fields key).map (·.type) ≠ some "time" →
      m.resolveValue key v = .ok v) := by
  refine ⟨?_, ?_, ?_⟩
  · intro h; simp [Model.resolveValue, h]
  · intro ht hv
    subst hv
    simp [Model.resolveValue, isNullable, ht, epochDate]
  · intro ht
    by_cases h : isNullable v = true
    · simp [Model.resolveValue, h]
    · simp [Model.resolveValue, h, ht]

/-- C8 witness: a concrete time-of-day value `day 3, 10:20:30.400` for a `time` field
is normalized to `day 0, 10:20:30.400`; the same value for an untyped/other field and a
`null` pass through. -/
theorem claim_C8_amended_witness :
    Model.resolveValue { name := "m", fields := [("t", { type := "time" })] } "t"
      (.vdate ⟨3, 10, 20, 30, 400⟩) = .ok (.vdate ⟨0, 10, 20, 30, 400⟩) ∧
    Model.resolveValue { name := "m", fields := [("t", { type := "time" })] } "u"
      (.vdate ⟨3, 10, 20, 30, 400⟩) = .ok (.vdate ⟨3, 10, 20, 30, 400⟩) ∧
    Model.resolveValue { name := "m", fields := [("t", { type := "time" })] } "t" .vnull
      = .ok .vnull := by
  refine ⟨(claim_C8_amended _ "t" _ ⟨3, 10, 20, 30, 400⟩).2.1 (by decide) rfl,
    (claim_C8_amended _ "u" _ ⟨3, 10, 20, 30, 400⟩).2.2 (by decide),
    (claim_C8_amended _ "t" _ ⟨0, 0, 0, 0, 0⟩).1 (by decide)⟩

/-- C6 counterexample: registering a field of type `primary` while autoincrement is
disabled does not, in general, raise the error — the check only inspects the field
named by a single string primary key.  Extending a fresh model (primary key `id`) with
`{id: 'unsigned', other: 'primary'}` succeeds, leaving a `primary`-typed field on a
model without autoincrement. -/
theorem claim_C6_counterexample :
    ((Model.extend { name := "foo" }
        [("id", .ofString "unsigned"), ("other", .ofString "primary")] {}).map
      (fun m => (m.autoInc, (alistLookup m.fields "other").map (·.type))))
      = .ok (false, some "primary") := by
  decide

/-- `Field.parse` only ever throws the invalid-field `TypeError`. -/
theorem fieldParse_error_shape (src : FieldSource) (e : ModelError)
    (h : Field.parse src = .error e) : e = .invalidFieldDefinition := by
  cases src with
  | ofCallback => exact Except.noConfusion h
  | ofField f => exact Except.noConfusion h
  | ofString s =>
      simp only [Field.parse] at h
      cases hm : matchFieldRegexp s with
      | none =>
          rw [hm] at h
          injection h with h2
          exact h2.symm
      | some ta =>
          obtain ⟨ty, arg⟩ := ta
          rw [hm] at h
          simp only [] at h
          split at h
          · exact Except.noConfusion h
          · split at h
            · split at h
              · exact Except.noConfusion h
              · exact Except.noConfusion h
            · exact Except.noConfusion h

/-- The field-parsing fold of `extend` only ever throws the invalid-field error. -/
theorem extendFields_error_shape (config : ExtendConfig) :
    ∀ (ext : List (String × FieldSource)) (acc : List (String × Field)) (e : ModelError),
    (ext.foldlM (fun acc (kv : String × FieldSource) => do
        let f ← Field.parse kv.2
        pure (alistSet acc kv.1 { f with deprecated := config.hasCallback })) acc
      = .error e) → e = .invalidFieldDefinition
  | [], acc, e => fun h => by
      simp only [List.foldlM_nil] at h
      exact Except.noConfusion h
  | kv :: rest, acc, e => fun h => by
      rw [List.foldlM_cons] at h
      cases hp : Field.parse kv.2 with
      | error e2 =>
          rw [hp] at h
          simp only [Bind.bind, Except.bind] at h
          injection h with h2
          rw [← h2]
          exact fieldParse_error_shape kv.2 e2 hp
      | ok f =>
          rw [hp] at h
          simp only [Bind.bind, Except.bind, Pure.pure, Except.pure] at h
          exact extendFields_error_shape config rest _ e h

/-- Errors of a `forM` come from its body. -/
theorem forM_error_shape {α : Type} (P : ModelError → Prop) :
    ∀ (l : List α) (f : α → Except ModelError Unit),
    (∀ a e, f a = .error e → P e) →
    ∀ e : ModelError, l.forM f = .error e → P e
  | [], _ => fun _ e h => by
      simp only [List.forM_nil'] at h
      exact Except.noConfusion h
  | a :: rest, f => fun hf e h => by
      rw [List.forM_cons'] at h
      cases hfa : f a with
      | error e2 =>
          rw [hfa] at h
          simp only [Bind.bind, Except.bind] at h
          injection h with h2
          exact h2 ▸ hf a e2 hfa
      | ok u =>
          rw [hfa] at h
          simp only [Bind.bind, Except.bind] at h
          exact forM_error_shape P rest f hf e h

/-- `checkIndex` only ever throws a missing-index-field error. -/
theorem checkIndex_error_shape (fields : List (String × Field)) (idx : StrOrList)
    (e : ModelError) (h : Model.checkIndex fields idx = .error e) :
    ∃ k, e = .missingIndexField k := by
  unfold Model.checkIndex at h
  refine forM_error_shape (fun e2 => ∃ k, e2 = .missingIndexField k)
    (makeArray idx) _ ?_ e h
  intro a e2 ha
  by_cases hc : (alistLookup fields a).isNone = true
  · rw [if_pos hc] at ha
    injection ha with h2
    exact ⟨a, h2.symm⟩
  · rw [if_neg hc] at ha
    exact Except.noConfusion ha

/-- The index checks at the end of `extend` never produce the
PrimaryAutoIncMismatch error. -/
theorem extendTail_ne_prim (fields : List (String × Field)) (primary : StrOrList)
    (uniq : List StrOrList) (mdl : Model)
    (h : (do
        Model.checkIndex fields primary
        uniq.forM (Model.checkIndex fields)
        pure mdl : Except ModelError Model) = .error .primaryTypeNeedsAutoInc) :
    False := by
  cases h1 : Model.checkIndex fields primary with
  | error e =>
      rw [h1] at h
      simp only [Bind.bind, Except.bind] at h
      injection h with h2
      obtain ⟨k, hk⟩ := checkIndex_error_shape fields primary e h1
      rw [hk] at h2
      exact ModelError.noConfusion h2
  | ok u =>
      rw [h1] at h
      simp only [Bind.bind, Except.bind] at h
      cases h2 : uniq.forM (Model.checkIndex fields) with
      | error e =>
          rw [h2] at h
          simp only [Bind.bind, Except.bind] at h
          injection h with h3
          obtain ⟨k, hk⟩ := forM_error_shape
            (fun e2 => ∃ k2, e2 = .missingIndexField k2) uniq (Model.checkIndex fields)
            (fun a e2 ha => checkIndex_error_shape fields a e2 ha) e h2
          rw [hk] at h3
          exact ModelError.noConfusion h3
      | ok u2 =>
          rw [h2] at h
          simp only [Bind.bind, Except.bind, Pure.pure, Except.pure] at h
          exact Except.noConfusion h

/-- C6 (amended): registering via `extend` raises the PrimaryAutoIncMismatch
`TypeError` exactly when, after the config merge, the extension's fields parse
successfully, the merged primary key is a single string key, autoincrement is
disabled, and that key's own field has type `primary`.  In particular a
`primary`-typed field that is not the single string primary key never raises it. -/
theorem claim_C6_amended (m : Model) (ext : List (String × FieldSource))
    (config : ExtendConfig) :
    m.extend ext config = .error .primaryTypeNeedsAutoInc ↔
    ∃ fields' p, Model.extendFields m ext config = .ok fields' ∧
      Model.extendPrimary m config = .one p ∧
      (config.autoInc || m.autoInc) = false ∧
      (alistLookup fields' p).map (·.type) = some "primary" := by
  rw [Model.extend]
  cases hf : Model.extendFields m ext config with
  | error e =>
      simp only [Bind.bind, Except.bind]
      constructor
      · intro h
        injection h with h2
        have h3 := extendFields_error_shape config ext m.fields e hf
        rw [h2] at h3
        exact ModelError.noConfusion h3
      · rintro ⟨f2, p2, h1, _⟩
        exact Except.noConfusion h1
  | ok fields2 =>
      cases hp : Model.extendPrimary m config with
      | one p =>
          simp only [Bind.bind, Except.bind]
          by_cases hcond : ¬ (config.autoInc || m.autoInc) = true ∧
              (alistLookup fields2 p).map (·.type) = some "primary"
          · rw [if_pos hcond]
            simp only [throw, throwThe, MonadExceptOf.throw, Bind.bind, Except.bind]
            constructor
            · intro _
              refine ⟨fields2, p, rfl, rfl, ?_, hcond.2⟩
              cases hb : config.autoInc || m.autoInc with
              | false => rfl
              | true => exact absurd hb hcond.1
            · intro _
              trivial
          · rw [if_neg hcond]
            simp only [Bind.bind, Except.bind, Pure.pure, Except.pure]
            constructor
            · intro h
              exact absurd h (fun hh => extendTail_ne_prim fields2 (.one p) _ _ hh)
            · rintro ⟨f2, p2, h1, h2, h3, h4⟩
              injection h1 with h1
              injection h2 with h2
              refine absurd ?_ hcond
              rw [← h1, ← h2] at h4
              exact ⟨fun hb => by rw [h3] at hb; exact Bool.noConfusion hb, h4⟩
      | many l =>
          simp only [Bind.bind, Except.bind, Pure.pure, Except.pure]
          constructor
          · intro h
            exact absurd h (fun hh => extendTail_ne_prim fields2 (.many l) _ _ hh)
          · rintro ⟨f2, p2, _, h2, _⟩
            exact StrOrList.noConfusion h2

/-- C6 witness: a single-field model whose primary key `id` is declared with the
`primary` shorthand and no autoincrement raises the error (forward direction at a
concrete input via mpr). -/
theorem claim_C6_amended_witness :
    Model.extend { name := "foo" } [("id", .ofString "primary")] {}
      = .error .primaryTypeNeedsAutoInc :=
  (claim_C6_amended { name := "foo" } [("id", .ofString "primary")] {}).mpr
    ⟨[("id", { type := "primary" })], "id", by decide, by decide, rfl, by decide⟩

theorem takeWhile_append_of_all {p : Char → Bool} (l1 l2 : List Char)
    (h : ∀ x ∈ l1, p x) : (l1 ++ l2).takeWhile p = l1 ++ l2.takeWhile p := by
  induction l1 with
  | nil => simp
  | cons a r ih =>
      simp only [List.cons_append, List.takeWhile_cons, h a (by simp)]
      simp [ih (fun x hx => h x (by simp [hx]))]

/-- Soundness and completeness of the shorthand regular expression against the
character-level grammar. -/
theorem matchFieldChars_isSome_iff (cs : List Char) :
    (matchFieldChars cs).isSome = true ↔
    ((cs ≠ [] ∧ ∀ c ∈ cs, isWordChar c) ∨
     (∃ ty arg : List Char, ty ≠ [] ∧ (∀ c ∈ ty, isWordChar c) ∧ arg ≠ [] ∧
       (∀ c ∈ arg, notLineTerm c = true) ∧ cs = ty ++ '(' :: (arg ++ [')']))) := by
  constructor
  · intro h
    unfold matchFieldChars at h
    rcases hei : (cs.takeWhile isWordChar).isEmpty with _ | _
    · rw [hei] at h
      simp only [Bool.false_eq_true, if_false] at h
      have hw : ∀ c ∈ cs.takeWhile isWordChar, isWordChar c :=
        fun c hc => List.mem_takeWhile_imp hc
      have hsplit : cs.takeWhile isWordChar ++ cs.drop (cs.takeWhile isWordChar).length
          = cs := by
        rw [drop_length_takeWhile]
        exact List.takeWhile_append_dropWhile isWordChar cs
      split at h
      · left
        rename_i hr
        rw [hr, List.append_nil] at hsplit
        refine ⟨?_, ?_⟩
        · rw [← hsplit]; simpa [List.isEmpty_iff] using hei
        · rw [← hsplit]; exact hw
      · rename_i more hr
        split at h
        · rename_i hcond
          right
          obtain ⟨hlast, hne, hall⟩ := hcond
          have hmne : more ≠ [] := by
            intro hm; rw [hm] at hlast; simp at hlast
          have hmore : more.dropLast ++ [')'] = more := by
            have hd := List.dropLast_append_getLast hmne
            have hg : more.getLast hmne = ')' := by
              rw [List.getLast?_eq_getLast more hmne] at hlast
              exact Option.some.inj hlast
            rw [hg] at hd
            exact hd
          refine ⟨cs.takeWhile isWordChar, more.dropLast, ?_, hw, hne, ?_, ?_⟩
          · simpa [List.isEmpty_iff] using hei
          · intro x hx
            exact List.all_eq_true.mp hall x hx
          · rw [hmore, ← hr, hsplit]
        · simp at h
      · simp at h
    · rw [hei] at h
      simp at h
  · intro h
    rcases h with ⟨hne, hall⟩ | ⟨ty, arg, htyne, htyall, hargne, hargall, hcs⟩
    · have ht : cs.takeWhile isWordChar = cs := List.takeWhile_eq_self_iff.mpr hall
      unfold matchFieldChars
      rw [ht]
      have hie : cs.isEmpty = false := by simpa [List.isEmpty_iff] using hne
      simp [hie, List.drop_length]
    · subst hcs
      have ht : ((ty ++ '(' :: (arg ++ [')'])).takeWhile isWordChar) = ty := by
        rw [takeWhile_append_of_all ty _ htyall]
        simp [List.takeWhile_cons, isWordChar]
      unfold matchFieldChars
      rw [ht]
      have hdrop : (ty ++ '(' :: (arg ++ [')'])).drop ty.length = '(' :: (arg ++ [')']) :=
        List.drop_left ty _
      rw [hdrop]
      have hie : ty.isEmpty = false := by simpa [List.isEmpty_iff] using htyne
      simp [hie, List.getLast?_concat, List.dropLast_concat, hargne, List.all_eq_true]
      exact hargall

/-- Every successful shorthand match makes `Field.parse` succeed. -/
theorem fieldParse_ok_of_match (s : String) (ty : String) (arg : Option String)
    (h : matchFieldRegexp s = some (ty, arg)) :
    ∃ f, Field.parse (.ofString s) = .ok f := by
  simp only [Field.parse, h]
  by_cases hd : ty = "decimal"
  · exact ⟨_, by rw [if_pos hd]⟩
  · rcases hq : (jsSplit ',' (arg.getD "")).get? 0 with _ | a
    · exact ⟨_, by rw [if_neg hd]⟩
    · by_cases ha : a = ""
      · exact ⟨{ type := ty, initial := Field.defaultInitial ty },
          by rw [if_neg hd]; simp [ha]⟩
      · exact ⟨{ type := ty, initial := Field.defaultInitial ty, length := some (jsToNumber (some a)) },
          by rw [if_neg hd]; simp [ha]⟩

/-- C7: `Field.parse` on a string shorthand accepts exactly the grammar
`TYPE | TYPE(arg) | TYPE(precision,scale)` — a match fails exactly off the grammar and
parsing raises the invalid-field `TypeError` exactly when the match fails; on a
`decimal` with a two-part argument the parts become `precision` and `scale`; on any
other type a nonempty single argument becomes `length`, and no argument leaves only the
type and its default initial value. -/
theorem claim_C7 (s ty : String) (arg : String) (p q a : String) :
    ((matchFieldRegexp s).isSome = true ↔ ShorthandGrammar s) ∧
    (Field.parse (.ofString s) = .error .invalidFieldDefinition ↔
      matchFieldRegexp s = none) ∧
    (matchFieldRegexp s = some ("decimal", some arg) → jsSplit ',' arg = [p, q] →
      Field.parse (.ofString s) = .ok { type := "decimal", initial := Field.defaultInitial "decimal", precision := some (jsToNumber (some p)), scale := some (jsToNumber (some q)) }) ∧
    (matchFieldRegexp s = some (ty, some arg) → ty ≠ "decimal" → jsSplit ',' arg = [a] →
      a ≠ "" → Field.parse (.ofString s) = .ok { type := ty, initial := Field.defaultInitial ty, length := some (jsToNumber (some a)) }) ∧
    (matchFieldRegexp s = some (ty, none) → ty ≠ "decimal" →
      Field.parse (.ofString s) = .ok { type := ty, initial := Field.defaultInitial ty }) := by
  refine ⟨?_, ?_, ?_, ?_, ?_⟩
  · rw [show (matchFieldRegexp s).isSome = (matchFieldChars s.toList).isSome by
      simp [matchFieldRegexp]]
    exact matchFieldChars_isSome_iff s.toList
  · constructor
    · intro h
      rcases hm : matchFieldRegexp s with _ | ⟨t, ar⟩
      · rfl
      · rcases fieldParse_ok_of_match s t ar hm with ⟨f, hf⟩
        rw [hf] at h
        exact absurd h (by simp)
    · intro h
      simp [Field.parse, h]
  · intro hm hsplit
    simp only [Field.parse, hm, Option.getD]
    simp [hsplit]
  · intro hm hd hsplit ha
    simp only [Field.parse, hm, Option.getD]
    rw [if_neg hd]
    simp [hsplit, ha]
  · intro hm hd
    simp only [Field.parse, hm, Option.getD]
    rw [if_neg hd]
    have hempty : jsSplit ',' "" = [""] := by decide
    simp [hempty]

/-- C7 witness: `decimal(10,2)` parses with precision 10 and scale 2; `string(255)`
parses with length 255; `integer` parses bare; `foo bar` is rejected. -/
theorem claim_C7_witness :
    Field.parse (.ofString "decimal(10,2)") = .ok { type := "decimal", initial := Field.defaultInitial "decimal", precision := some (JSNum.num 10), scale := some (JSNum.num 2) } ∧
    Field.parse (.ofString "string(255)") = .ok { type := "string", initial := Field.defaultInitial "string", length := some (JSNum.num 255) } ∧
    Field.parse (.ofString "integer") = .ok { type := "integer", initial := Field.defaultInitial "integer" } ∧
    Field.parse (.ofString "foo bar") = .error .invalidFieldDefinition := by
  refine ⟨?_, ?_, ?_, ?_⟩
  · have h := (claim_C7 "decimal(10,2)" "decimal" "10,2" "10" "2" "").2.2.1
      (by decide) (by decide)
    rw [h]
    decide
  · have h := (claim_C7 "string(255)" "string" "255" "" "" "255").2.2.2.1
      (by decide) (by decide) (by decide) (by decide)
    rw [h]
    decide
  · exact (claim_C7 "integer" "integer" "" "" "" "").2.2.2.2 (by decide) (by decide)
  · exact ((claim_C7 "foo bar" "" "" "" "" "").2.1).mpr (by decide)

theorem strContains_iff (l : List String) (x : String) : l.contains x = true ↔ x ∈ l := by
  induction l with
  | nil => simp
  | cons a rest ih =>
      simp only [List.contains_cons, Bool.or_eq_true, beq_iff_eq, ih, List.mem_cons]

theorem seedEntry_eq_some_iff (pk : List String) (kf : String × Field) (k : String)
    (v : Value) : Model.seedEntry pk kf = some (k, v) ↔
    (kf.1 = k ∧ kf.2.deprecated = false ∧ ¬ k ∈ pk ∧ kf.2.initial = some v ∧
      isNullable v = false) := by
  constructor
  · intro h
    unfold Model.seedEntry at h
    by_cases hd : kf.2.deprecated
    · simp [hd] at h
    · rw [if_neg hd] at h
      split at h
      · rename_i hcond
        obtain ⟨hpk, hnul⟩ := hcond
        rcases hi : kf.2.initial with _ | v0
        · rw [hi] at hnul
          exact absurd rfl hnul
        · rw [hi] at hnul h
          simp only [Option.getD_some, cloneValue, id] at h
          obtain ⟨hk, hv⟩ := Prod.mk.injEq .. ▸ Option.some.inj h
          subst hk; subst hv
          refine ⟨rfl, by simpa using hd, ?_, rfl, by simpa using hnul⟩
          intro hmem
          exact hpk ((strContains_iff pk kf.1).mpr hmem)
      · simp at h
  · intro ⟨h1, h2, h3, h4, h5⟩
    unfold Model.seedEntry
    rw [if_neg (by simp [h2]), if_pos ?_]
    · rw [h4, h1]
      simp [cloneValue]
    · constructor
      · intro hc
        exact h3 (h1 ▸ (strContains_iff pk kf.1).mp hc)
      · rw [h4]
        simp [h5]

theorem seedFold_append (pk : List String) :
    ∀ (fields : List (String × Field)) (acc : List (String × Value)),
    (∀ k ∈ acc.map (·.1), k ∉ fields.map (·.1)) →
    (fields.map (·.1)).Nodup →
    fields.foldl (fun acc (kf : String × Field) =>
        match Model.seedEntry pk kf with
        | some kv => jsSet acc kv.1 kv.2
        | none => acc) acc
      = acc ++ fields.filterMap (Model.seedEntry pk) := by
  intro fields
  induction fields with
  | nil => intro acc _ _; simp
  | cons kf rest ih =>
      intro acc hdisj hnd
      simp only [List.map_cons, List.nodup_cons] at hnd
      rcases hse : Model.seedEntry pk kf with _ | kv
      · have hstep := ih acc (fun k hk hm => hdisj k hk (by simp [hm])) hnd.2
        simp only [List.foldl_cons, hse, hstep, List.filterMap_cons_none hse]
      · have hkey : kv.1 = kf.1 := by
          obtain ⟨k0, v0⟩ := kv
          exact ((seedEntry_eq_some_iff pk kf k0 v0).mp hse).1.symm
        have hfresh : kv.1 ∉ acc.map (·.1) := fun hm =>
          hdisj kv.1 hm (by simp [hkey])
        have hset : jsSet acc kv.1 kv.2 = acc ++ [kv] := by
          simpa [jsSet] using alistSet_fresh acc kv.1 kv.2 hfresh
        have hstep := ih (acc ++ [kv]) ?_ hnd.2
        · simp only [List.foldl_cons, hse, hset, hstep,
            List.filterMap_cons_some hse, List.append_assoc, List.singleton_append]
        · intro k hk
          simp only [List.map_append, List.mem_append, List.map_cons, List.map_nil,
            List.mem_singleton, List.not_mem_nil, or_false] at hk
          rcases hk with hk | hk
          · exact fun hm => hdisj k hk (by simp [hm])
          · rw [hk, hkey]
            exact hnd.1

theorem createSeed_eq_filterMap (m : Model) (hnd : (m.fields.map (·.1)).Nodup) :
    m.createSeed = m.fields.filterMap (Model.seedEntry (makeArray m.primary)) := by
  unfold Model.createSeed
  simpa using seedFold_append (makeArray m.primary) m.fields [] (by simp) hnd

theorem seed_keys_sublist (pk : List String) (fields : List (String × Field)) :
    ((fields.filterMap (Model.seedEntry pk)).map (·.1)).Sublist (fields.map (·.1)) := by
  induction fields with
  | nil => simp
  | cons kf rest ih =>
      rcases hse : Model.seedEntry pk kf with _ | kv
      · rw [List.filterMap_cons_none hse]
        exact ih.cons kf.1
      · rw [List.filterMap_cons_some hse]
        have hkey : kv.1 = kf.1 := by
          obtain ⟨k0, v0⟩ := kv
          exact ((seedEntry_eq_some_iff pk kf k0 v0).mp hse).1.symm
        simp only [List.map_cons, hkey]
        exact ih.cons₂ kf.1

/-- C2: `create(data)` seeds exactly the declared, non-deprecated fields outside the
primary key whose `initial` is non-null (each initial value deep-cloned — the clone of
an immutable value being the value itself), and then overlays `data` through `parse`:
the first conjunct is the seed-then-parse factoring, the second characterises the seed
extensionally. -/
theorem claim_C2 (m : Model) (d : List (String × Value))
    (hnd : (m.fields.map (·.1)).Nodup) :
    m.create d = m.parse (.vobj (jsMerge m.createSeed d)) ∧
    (∀ k v, jsLookup m.createSeed k = some v ↔
      ∃ f, alistLookup m.fields k = some f ∧ f.deprecated = false ∧
        k ∉ makeArray m.primary ∧ f.initial = some (cloneValue v) ∧
        isNullable v = false) := by
  constructor
  · rfl
  · intro k v
    rw [createSeed_eq_filterMap m hnd]
    have hknd : ((m.fields.filterMap (Model.seedEntry (makeArray m.primary))).map
        (·.1)).Nodup := (seed_keys_sublist (makeArray m.primary) m.fields).nodup hnd
    constructor
    · intro h
      have hmem := alistLookup_mem_of_eq_some _ k v h
      rcases List.mem_filterMap.mp hmem with ⟨kf, hkf, hse⟩
      obtain ⟨h1, h2, h3, h4, h5⟩ := (seedEntry_eq_some_iff _ kf k v).mp hse
      refine ⟨kf.2, ?_, h2, h3, by simpa [cloneValue] using h4, h5⟩
      have : (k, kf.2) ∈ m.fields := by
        obtain ⟨k0, f0⟩ := kf
        simp only at h1
        rw [← h1]
        exact hkf
      exact alistLookup_eq_some_of_mem m.fields k kf.2 hnd this
    · intro ⟨f, hf, h2, h3, h4, h5⟩
      have hmemf : (k, f) ∈ m.fields := alistLookup_mem_of_eq_some m.fields k f hf
      have hse : Model.seedEntry (makeArray m.primary) (k, f) = some (k, v) :=
        (seedEntry_eq_some_iff _ (k, f) k v).mpr
          ⟨rfl, h2, h3, by simpa [cloneValue] using h4, h5⟩
      exact alistLookup_eq_some_of_mem _ k v hknd
        (List.mem_filterMap.mpr ⟨(k, f), hmemf, hse⟩)

/-- C2 witness: a model with a primary key `id` (initial 0), a field `n` with initial
0, a nullable-initial field `s`, and a deprecated field `old`: the seed contains
exactly `n`. -/
theorem claim_C2_witness :
    (Model.create { name := "m", fields := [("id", { type := "unsigned", initial := some (.vnum 0) }), ("n", { type := "integer", initial := some (.vnum 0) }), ("s", { type := "string" }), ("old", { type := "integer", initial := some (.vnum 1), deprecated := true })] } [("x", .vnum 7)]
      = Model.parse { name := "m", fields := [("id", { type := "unsigned", initial := some (.vnum 0) }), ("n", { type := "integer", initial := some (.vnum 0) }), ("s", { type := "string" }), ("old", { type := "integer", initial := some (.vnum 1), deprecated := true })] } (.vobj [("n", .vnum 0), ("x", .vnum 7)])) ∧
    Model.createSeed { name := "m", fields := [("id", { type := "unsigned", initial := some (.vnum 0) }), ("n", { type := "integer", initial := some (.vnum 0) }), ("s", { type := "string" }), ("old", { type := "integer", initial := some (.vnum 1), deprecated := true })] }
      = [("n", .vnum 0)] := by
  constructor
  · exact (claim_C2 _ [("x", .vnum 7)] (by decide)).1
  · decide

/-! ## Lemmas for the format/parse round trip (C1) -/

theorem alistLookup_alistSet_self {α : Type} (l : List (String × α)) (k : String)
    (v : α) : alistLookup (alistSet l k v) k = some v := by
  induction l with
  | nil => simp [alistSet, alistLookup]
  | cons a rest ih =>
      by_cases hk : a.1 = k
      · simp [alistSet, alistLookup, hk]
      · simp [alistSet, alistLookup, hk, ih]

theorem alistLookup_alistSet_ne {α : Type} (l : List (String × α)) (k k' : String)
    (v : α) (h : k' ≠ k) : alistLookup (alistSet l k v) k' = alistLookup l k' := by
  induction l with
  | nil => simp [alistSet, alistLookup, Ne.symm h]
  | cons a rest ih =>
      by_cases hk : a.1 = k
      · simp [alistSet, alistLookup, hk, Ne.symm h]
      · by_cases hk' : a.1 = k'
        · simp [alistSet, alistLookup, hk, hk', h]
        · simp [alistSet, alistLookup, hk, hk', ih]

theorem walkOk_nil : ∀ segs, walkOk [] segs = true := by
  intro segs
  cases segs <;> simp [walkOk, jsLookup, alistLookup]

theorem resolveValue_of_noTime (m : Model) (h : noTimeFields m = true) (k : String)
    (v : Value) : m.resolveValue k v = .ok v := by
  unfold Model.resolveValue
  by_cases hn : isNullable v = true
  · simp [hn]
  · rcases hl : alistLookup m.fields k with _ | f
    · simp [hn, hl]
    · have hf : f.type ≠ "time" := by
        have hmem := alistLookup_mem_of_eq_some m.fields k f hl
        have := List.all_eq_true.mp h (k, f) hmem
        simpa using this
      simp [hn, hl, hf]

theorem insertPath_eq_spec (last : String) (v : Value) :
    ∀ (segs : List String) (obj : List (String × Value)),
    walkOk obj segs = true →
    insertPath obj segs last v = .ok (specInsert obj segs last v) := by
  intro segs
  induction segs with
  | nil => intro obj _; rfl
  | cons s rest ih =>
      intro obj hw
      unfold walkOk at hw
      unfold insertPath specInsert
      rcases hl : jsLookup obj s with _ | w
      · have := ih [] (walkOk_nil rest)
        simp [this, Bind.bind, Except.bind]
      · rw [hl] at hw
        cases w with
        | vundef =>
            have h2 := ih [] (walkOk_nil rest)
            simp [h2, Bind.bind, Except.bind]
        | vnull =>
            have h2 := ih [] (walkOk_nil rest)
            simp [h2, Bind.bind, Except.bind]
        | vobj kvs =>
            have h2 := ih kvs hw
            simp [h2, Bind.bind, Except.bind]
        | vbool b => exact Bool.noConfusion hw
        | vnum n => exact Bool.noConfusion hw
        | vstr s0 => exact Bool.noConfusion hw
        | vdate d => exact Bool.noConfusion hw
        | vexpr e => exact Bool.noConfusion hw
        | varr xs => exact Bool.noConfusion hw

theorem jsLookup_jsSet_self (l : List (String × Value)) (k : String) (v : Value) :
    jsLookup (jsSet l k v) k = some v := alistLookup_alistSet_self l k v

theorem jsLookup_jsSet_ne (l : List (String × Value)) (k k' : String) (v : Value)
    (h : k' ≠ k) : jsLookup (jsSet l k v) k' = jsLookup l k' :=
  alistLookup_alistSet_ne l k k' v h

theorem walkOk_specInsert :
    ∀ (d2 : List String) (obj : List (String × Value)) (d1 : List String) (l1 : String)
      (v : Value),
    walkOk obj d2 = true →
    ¬ (d1 ++ [l1]) <+: d2 →
    walkOk (specInsert obj d1 l1 v) d2 = true := by
  intro d2
  induction d2 with
  | nil => intro obj d1 l1 v _ _; cases specInsert obj d1 l1 v <;> simp [walkOk]
  | cons s2 r2 ih =>
      intro obj d1 l1 v hw hp
      cases d1 with
      | nil =>
          have hne : l1 ≠ s2 := by
            intro he
            subst he
            exact hp (List.cons_prefix_cons.mpr ⟨rfl, List.nil_prefix⟩)
          show walkOk (jsSet obj l1 v) (s2 :: r2) = true
          unfold walkOk at hw ⊢
          rw [jsLookup_jsSet_ne obj l1 s2 v (Ne.symm hne)]
          exact hw
      | cons s1 r1 =>
          unfold walkOk at hw
          by_cases hs : s1 = s2
          · subst hs
            have hp' : ¬ (r1 ++ [l1]) <+: r2 := fun hq =>
              hp (List.cons_prefix_cons.mpr ⟨rfl, hq⟩)
            unfold specInsert
            rcases hl : jsLookup obj s1 with _ | w
            · show walkOk (jsSet obj s1 (Value.vobj (specInsert [] r1 l1 v))) (s1 :: r2)
                = true
              unfold walkOk
              rw [jsLookup_jsSet_self]
              exact ih [] r1 l1 v (walkOk_nil r2) hp'
            · rw [hl] at hw
              cases w with
              | vobj kvs =>
                  show walkOk (jsSet obj s1 (Value.vobj (specInsert kvs r1 l1 v)))
                    (s1 :: r2) = true
                  unfold walkOk
                  rw [jsLookup_jsSet_self]
                  exact ih kvs r1 l1 v hw hp'
              | vundef =>
                  show walkOk (jsSet obj s1 (Value.vobj (specInsert [] r1 l1 v)))
                    (s1 :: r2) = true
                  unfold walkOk
                  rw [jsLookup_jsSet_self]
                  exact ih [] r1 l1 v (walkOk_nil r2) hp'
              | vnull =>
                  show walkOk (jsSet obj s1 (Value.vobj (specInsert [] r1 l1 v)))
                    (s1 :: r2) = true
                  unfold walkOk
                  rw [jsLookup_jsSet_self]
                  exact ih [] r1 l1 v (walkOk_nil r2) hp'
              | vbool b => exact Bool.noConfusion hw
              | vnum n => exact Bool.noConfusion hw
              | vstr s0 => exact Bool.noConfusion hw
              | vdate d => exact Bool.noConfusion hw
              | vexpr e => exact Bool.noConfusion hw
              | varr xs => exact Bool.noConfusion hw
          · unfold specInsert
            rcases hl : jsLookup obj s1 with _ | w
            · show walkOk (jsSet obj s1 (Value.vobj (specInsert [] r1 l1 v))) (s2 :: r2)
                = true
              unfold walkOk
              rw [jsLookup_jsSet_ne obj s1 s2 _ (Ne.symm hs)]
              exact hw
            · cases w with
              | vobj kvs =>
                  show walkOk (jsSet obj s1 (Value.vobj (specInsert kvs r1 l1 v)))
                    (s2 :: r2) = true
                  unfold walkOk
                  rw [jsLookup_jsSet_ne obj s1 s2 _ (Ne.symm hs)]
                  exact hw
              | vundef =>
                  show walkOk (jsSet obj s1 (Value.vobj (specInsert [] r1 l1 v)))
                    (s2 :: r2) = true
                  unfold walkOk
                  rw [jsLookup_jsSet_ne obj s1 s2 _ (Ne.symm hs)]
                  exact hw
              | vnull =>
                  show walkOk (jsSet obj s1 (Value.vobj (specInsert [] r1 l1 v)))
                    (s2 :: r2) = true
                  unfold walkOk
                  rw [jsLookup_jsSet_ne obj s1 s2 _ (Ne.symm hs)]
                  exact hw
              | vbool b =>
                  show walkOk (jsSet obj s1 (Value.vobj (specInsert [] r1 l1 v)))
                    (s2 :: r2) = true
                  unfold walkOk
                  rw [jsLookup_jsSet_ne obj s1 s2 _ (Ne.symm hs)]
                  exact hw
              | vnum n =>
                  show walkOk (jsSet obj s1 (Value.vobj (specInsert [] r1 l1 v)))
                    (s2 :: r2) = true
                  unfold walkOk
                  rw [jsLookup_jsSet_ne obj s1 s2 _ (Ne.symm hs)]
                  exact hw
              | vstr s0 =>
                  show walkOk (jsSet obj s1 (Value.vobj (specInsert [] r1 l1 v)))
                    (s2 :: r2) = true
                  unfold walkOk
                  rw [jsLookup_jsSet_ne obj s1 s2 _ (Ne.symm hs)]
                  exact hw
              | vdate d =>
                  show walkOk (jsSet obj s1 (Value.vobj (specInsert [] r1 l1 v)))
                    (s2 :: r2) = true
                  unfold walkOk
                  rw [jsLookup_jsSet_ne obj s1 s2 _ (Ne.symm hs)]
                  exact hw
              | vexpr e =>
                  show walkOk (jsSet obj s1 (Value.vobj (specInsert [] r1 l1 v)))
                    (s2 :: r2) = true
                  unfold walkOk
                  rw [jsLookup_jsSet_ne obj s1 s2 _ (Ne.symm hs)]
                  exact hw
              | varr xs =>
                  show walkOk (jsSet obj s1 (Value.vobj (specInsert [] r1 l1 v)))
                    (s2 :: r2) = true
                  unfold walkOk
                  rw [jsLookup_jsSet_ne obj s1 s2 _ (Ne.symm hs)]
                  exact hw

theorem splitChar_ne_nil (sep : Char) : ∀ cs : List Char, splitChar sep cs ≠ [] := by
  intro cs
  induction cs with
  | nil => simp [splitChar]
  | cons c rest ih =>
      unfold splitChar
      by_cases hc : c = sep
      · simp [hc]
      · rcases hr : splitChar sep rest with _ | ⟨g, gs⟩
        · simp [hc, hr]
        · simp [hc, hr]

theorem jsSplit_ne_nil (sep : Char) (s : String) : jsSplit sep s ≠ [] := by
  unfold jsSplit
  intro h
  exact splitChar_ne_nil sep s.toList (List.map_eq_nil_iff.mp h)

theorem dropLast_append_getLastD (l : List String) (h : l ≠ []) :
    l.dropLast ++ [l.getLast?.getD ""] = l := by
  rw [List.getLast?_eq_getLast l h]
  simpa using List.dropLast_append_getLast h

theorem parseFold_eq_spec (m : Model) (hT : noTimeFields m = true) :
    ∀ (flat : List (String × Value)) (acc : List (String × Value)),
    (∀ kv ∈ flat, walkOk acc ((jsSplit '.' kv.1).dropLast) = true) →
    List.Pairwise (fun a b : String × Value =>
      ¬ (jsSplit '.' a.1) <+: (jsSplit '.' b.1)) flat →
    flat.foldlM (fun acc (kv : String × Value) => do
        let segs := jsSplit '.' kv.1
        let value ← m.resolveValue kv.1 kv.2
        insertPath acc segs.dropLast (segs.getLast?.getD "") value) acc
      = .ok (flat.foldl (fun acc (kv : String × Value) =>
          let segs := jsSplit '.' kv.1
          specInsert acc segs.dropLast (segs.getLast?.getD "") kv.2) acc) := by
  intro flat
  induction flat with
  | nil => intro acc _ _; rfl
  | cons kv rest ih =>
      intro acc hwalk hpair
      have hw0 : walkOk acc ((jsSplit '.' kv.1).dropLast) = true :=
        hwalk kv (by simp)
      have hres : m.resolveValue kv.1 kv.2 = .ok kv.2 := resolveValue_of_noTime m hT _ _
      have hins := insertPath_eq_spec ((jsSplit '.' kv.1).getLast?.getD "") kv.2
        ((jsSplit '.' kv.1).dropLast) acc hw0
      rw [List.foldlM_cons, List.foldl_cons]
      simp only [hres, hins, Bind.bind, Except.bind]
      apply ih
      · intro kv' hkv'
        apply walkOk_specInsert
        · exact hwalk kv' (by simp [hkv'])
        · rw [dropLast_append_getLastD (jsSplit '.' kv.1) (jsSplit_ne_nil '.' kv.1)]
          intro hpre
          exact (List.pairwise_cons.mp hpair).1 kv' hkv'
            (hpre.trans (List.dropLast_prefix (jsSplit '.' kv'.1)))
      · exact (List.pairwise_cons.mp hpair).2

theorem parse_eq_specRegroup (m : Model) (hT : noTimeFields m = true)
    (flat : List (String × Value))
    (hpair : List.Pairwise (fun a b : String × Value =>
      ¬ (jsSplit '.' a.1) <+: (jsSplit '.' b.1)) flat) :
    m.parse (.vobj flat) = .ok (specRegroup flat) := by
  unfold Model.parse specRegroup
  have h := parseFold_eq_spec m hT flat []
    (fun kv _ => walkOk_nil ((jsSplit '.' kv.1).dropLast)) hpair
  simp only [entriesOf] at *
  rw [h]
  rfl

theorem specRestrictVal_declared (m : Model) (v : Value) (key : String)
    (h : (m.fields.map (fun x => x.1)).contains key = true) :
    specRestrictVal m v key = [(key, v)] := by
  cases v <;> (simp only [specRestrictVal]; rw [if_pos h])

theorem formatScalar_case (m : Model) (k : String) (rest : List (String × Value))
    (prefx : String) (acc : List (String × Value)) (v : Value)
    (hscal : (!jsTruthy v || !isObjectTypeof v || isEvalExpr v) = true)
    (hcontF : (m.fields.map (·.1)).contains (prefx ++ k) = false)
    (hdisj : ∀ k0 ∈ (specRestrictFlat m ((k, v) :: rest) prefx).map (·.1),
      k0 ∉ acc.map (·.1))
    (hnd : ((specRestrictFlat m ((k, v) :: rest) prefx).map (·.1)).Nodup)
    (hrest : ∀ acc' : List (String × Value),
      (∀ k0 ∈ (specRestrictFlat m rest prefx).map (·.1), k0 ∉ acc'.map (·.1)) →
      ((specRestrictFlat m rest prefx).map (·.1)).Nodup →
      Model.formatEntries m false rest prefx acc'
        = .ok (acc' ++ specRestrictFlat m rest prefx)) :
    Model.formatEntries m false ((k, v) :: rest) prefx acc
      = .ok (acc ++ specRestrictFlat m ((k, v) :: rest) prefx) := by
  have hchunk : specRestrictFlat m ((k, v) :: rest) prefx
      = (if (m.fields.map (·.1)).any (fun f => strStartsWith (prefx ++ k) (f ++ "."))
         then [(prefx ++ k, v)] else []) ++ specRestrictFlat m rest prefx := by
    cases v with
    | vobj kvs => exact Bool.noConfusion hscal
    | varr xs => exact Bool.noConfusion hscal
    | vdate d => exact Bool.noConfusion hscal
    | vundef => simp only [specRestrictFlat, specRestrictVal, hcontF]; simp
    | vnull => simp only [specRestrictFlat, specRestrictVal, hcontF]; simp
    | vbool b => simp only [specRestrictFlat, specRestrictVal, hcontF]; simp
    | vnum n => simp only [specRestrictFlat, specRestrictVal, hcontF]; simp
    | vstr s0 => simp only [specRestrictFlat, specRestrictVal, hcontF]; simp
    | vexpr e => simp only [specRestrictFlat, specRestrictVal, hcontF]; simp
  rw [hchunk] at hdisj hnd ⊢
  simp only [Model.formatEntries]
  rw [if_neg (by rw [hcontF]; simp)]
  rw [if_pos hscal]
  by_cases hany : (m.fields.map (·.1)).any
      (fun f => strStartsWith (prefx ++ k) (f ++ ".")) = true
  · rw [if_pos hany] at hdisj hnd
    rw [if_pos hany, if_pos hany]
    simp only [List.singleton_append, List.map_cons, List.nodup_cons] at hdisj hnd ⊢
    have hfresh : prefx ++ k ∉ acc.map (·.1) := hdisj (prefx ++ k) (by simp)
    have hset : jsSet acc (prefx ++ k) v = acc ++ [(prefx ++ k, v)] := by
      simpa [jsSet] using alistSet_fresh acc (prefx ++ k) v hfresh
    simp only [Bind.bind, Except.bind, hset]
    rw [hrest (acc ++ [(prefx ++ k, v)]) ?_ hnd.2]
    · simp
    · intro k0 hk0
      simp only [List.map_append, List.map_cons, List.map_nil, List.mem_append,
        List.mem_singleton, List.not_mem_nil]
      push_neg
      refine ⟨hdisj k0 (by simp [hk0]), ?_⟩
      intro he
      rw [he] at hk0
      exact absurd hk0 (by simpa using hnd.1)
  · rw [if_neg hany] at hdisj hnd
    simp only [List.nil_append] at hdisj hnd
    rw [if_neg hany, if_neg (by simp), if_neg hany]
    simp only [List.nil_append]
    simp only [Bind.bind, Except.bind]
    exact hrest acc hdisj hnd

theorem formatEntries_eq_spec (m : Model) :
    ∀ (entries : List (String × Value)) (prefx : String) (acc : List (String × Value)),
    formatCompat m entries prefx = true →
    (∀ k ∈ (specRestrictFlat m entries prefx).map (·.1), k ∉ acc.map (·.1)) →
    ((specRestrictFlat m entries prefx).map (·.1)).Nodup →
    Model.formatEntries m false entries prefx acc
      = .ok (acc ++ specRestrictFlat m entries prefx)
  | [], prefx, acc => fun _ _ _ => by
      simp [Model.formatEntries, specRestrictFlat]
  | (k, v) :: rest, prefx, acc => fun hc hdisj hnd => by
      unfold formatCompat at hc
      rw [Bool.and_eq_true] at hc
      obtain ⟨hc1, hc2⟩ := hc
      by_cases hcont : (m.fields.map (·.1)).contains (prefx ++ k) = true
      · -- declared key: stored as-is
        have hchunk : specRestrictFlat m ((k, v) :: rest) prefx
            = [(prefx ++ k, v)] ++ specRestrictFlat m rest prefx := by
          simp only [specRestrictFlat]
          rw [specRestrictVal_declared m v (prefx ++ k) hcont]
        rw [hchunk] at hdisj hnd ⊢
        simp only [List.singleton_append, List.map_cons, List.nodup_cons] at hnd
        have hfresh : prefx ++ k ∉ acc.map (·.1) := hdisj (prefx ++ k) (by simp)
        have hset : jsSet acc (prefx ++ k) v = acc ++ [(prefx ++ k, v)] := by
          simpa [jsSet] using alistSet_fresh acc (prefx ++ k) v hfresh
        simp only [Model.formatEntries]
        rw [if_pos hcont]
        simp only [Bind.bind, Except.bind, hset]
        rw [formatEntries_eq_spec m rest prefx (acc ++ [(prefx ++ k, v)]) hc2 ?_ hnd.2]
        · simp
        · intro k0 hk0
          simp only [List.map_append, List.map_cons, List.map_nil, List.mem_append,
            List.mem_singleton, List.not_mem_nil]
          push_neg
          refine ⟨hdisj k0 (by simp [hk0]), ?_⟩
          intro he
          rw [he] at hk0
          exact absurd hk0 (by simpa using hnd.1)
      · have hcontF : (m.fields.map (·.1)).contains (prefx ++ k) = false := by
          simpa using hcont
        cases v with
        | vobj kvs =>
            have hchunk : specRestrictFlat m ((k, .vobj kvs) :: rest) prefx
                = specRestrictFlat m kvs (prefx ++ k ++ ".")
                  ++ specRestrictFlat m rest prefx := by
              simp only [specRestrictFlat, specRestrictVal, hcontF]
              simp
            unfold formatCompatVal at hc1
            rw [hcontF] at hc1
            simp at hc1
            rw [hchunk] at hdisj hnd ⊢
            simp only [List.map_append, List.nodup_append] at hnd
            simp only [Model.formatEntries]
            rw [if_neg (by rw [hcontF]; simp)]
            rw [if_neg (by simp [jsTruthy, isObjectTypeof, isEvalExpr])]
            have hinner := formatEntries_eq_spec m kvs (prefx ++ k ++ ".") acc hc1
              (fun k0 hk0 => hdisj k0 (by simp [hk0])) hnd.1
            simp only [Model.formatValue]
            simp only [Bind.bind, Except.bind, hinner]
            rw [formatEntries_eq_spec m rest prefx
              (acc ++ specRestrictFlat m kvs (prefx ++ k ++ ".")) hc2 ?_ hnd.2.1]
            · simp
            · intro k0 hk0
              simp only [List.map_append, List.mem_append]
              push_neg
              refine ⟨hdisj k0 (by simp [hk0]), ?_⟩
              intro he
              exact hnd.2.2 he hk0
        | varr xs => unfold formatCompatVal at hc1; rw [hcontF] at hc1; simp at hc1
        | vdate d => unfold formatCompatVal at hc1; rw [hcontF] at hc1; simp at hc1
        | vundef =>
            exact formatScalar_case m k rest prefx acc .vundef (by decide) hcontF hdisj
              hnd (fun acc' hd' hn' => formatEntries_eq_spec m rest prefx acc' hc2 hd' hn')
        | vnull =>
            exact formatScalar_case m k rest prefx acc .vnull (by decide) hcontF hdisj
              hnd (fun acc' hd' hn' => formatEntries_eq_spec m rest prefx acc' hc2 hd' hn')
        | vbool b =>
            exact formatScalar_case m k rest prefx acc (.vbool b)
              (by simp [jsTruthy, isObjectTypeof, isEvalExpr]) hcontF hdisj
              hnd (fun acc' hd' hn' => formatEntries_eq_spec m rest prefx acc' hc2 hd' hn')
        | vnum n =>
            exact formatScalar_case m k rest prefx acc (.vnum n)
              (by simp [jsTruthy, isObjectTypeof, isEvalExpr]) hcontF hdisj
              hnd (fun acc' hd' hn' => formatEntries_eq_spec m rest prefx acc' hc2 hd' hn')
        | vstr s0 =>
            exact formatScalar_case m k rest prefx acc (.vstr s0)
              (by simp [jsTruthy, isObjectTypeof, isEvalExpr]) hcontF hdisj
              hnd (fun acc' hd' hn' => formatEntries_eq_spec m rest prefx acc' hc2 hd' hn')
        | vexpr e =>
            exact formatScalar_case m k rest prefx acc (.vexpr e)
              (by simp [jsTruthy, isObjectTypeof, isEvalExpr]) hcontF hdisj
              hnd (fun acc' hd' hn' => formatEntries_eq_spec m rest prefx acc' hc2 hd' hn')

theorem keysCoherent_pairwise : ∀ keys : List String, keysCoherent keys = true →
    List.Pairwise (fun a b : String => ¬ ((jsSplit '.' a) <+: (jsSplit '.' b))
      ∧ ¬ ((jsSplit '.' b) <+: (jsSplit '.' a))) keys
  | [], _ => List.Pairwise.nil
  | k :: rest, h => by
      unfold keysCoherent at h
      rw [Bool.and_eq_true] at h
      obtain ⟨h1, h2⟩ := h
      refine List.pairwise_cons.mpr ⟨?_, keysCoherent_pairwise rest h2⟩
      intro k2 hk2
      have h3 := List.all_eq_true.mp h1 k2 hk2
      unfold segsIncomparable at h3
      rw [Bool.and_eq_true] at h3
      obtain ⟨ha, hb⟩ := h3
      rw [Bool.not_eq_true'] at ha hb
      constructor
      · intro hp
        have hq := List.isPrefixOf_iff_prefix.mpr hp
        rw [ha] at hq
        exact Bool.noConfusion hq
      · intro hp
        have hq := List.isPrefixOf_iff_prefix.mpr hp
        rw [hb] at hq
        exact Bool.noConfusion hq

theorem keysCoherent_nodup (keys : List String) (h : keysCoherent keys = true) :
    keys.Nodup :=
  (keysCoherent_pairwise keys h).imp
    (fun hab he => hab.1 (by rw [he]))

/-- C1 counterexample: for a model with a `time`-typed field the round trip
`M.parse(M.format(r, strict = false))` is NOT the restriction of `r` to declared
fields — `parse` runs every value through `resolveValue`, which resets the date
component of a `time` value to the epoch, while the restriction keeps the value
intact. -/
theorem claim_C1_counterexample :
    roundTrip { name := "m", fields := [("t", { type := "time" })] }
        (.vobj [("t", .vdate ⟨1, 2, 3, 4, 5⟩)])
      ≠ .ok (specRestrict { name := "m", fields := [("t", { type := "time" })] }
          [("t", .vdate ⟨1, 2, 3, 4, 5⟩)]) := by
  decide

/-- C1 (amended): for a model without `time`-typed fields (`resolveValue` is then the
identity on every value), a record whose walk meets no array or date at an undeclared
key (`formatCompat`) and whose projected dotted keys are pairwise incomparable
(`keysCoherent`), the composition `M.parse(M.format(r, strict = false))` returns
exactly `r` restricted to declared fields with dotted paths regrouped into nested
objects. -/
theorem claim_C1_amended (m : Model) (r : List (String × Value))
    (hT : noTimeFields m = true)
    (hc : formatCompat m r "" = true)
    (hk : keysCoherent ((specRestrictFlat m r "").map (fun x => x.1)) = true) :
    roundTrip m (.vobj r) = .ok (specRestrict m r) := by
  have hpw := keysCoherent_pairwise ((specRestrictFlat m r "").map (fun x => x.1)) hk
  have hnd : ((specRestrictFlat m r "").map (fun x => x.1)).Nodup :=
    keysCoherent_nodup _ hk
  have hfe := formatEntries_eq_spec m r "" [] hc (by simp) hnd
  rw [List.nil_append] at hfe
  have hfmt : m.format (.vobj r) false = .ok (specRestrictFlat m r "") := hfe
  have hpair : List.Pairwise (fun a b : String × Value =>
      ¬ ((jsSplit '.' a.1) <+: (jsSplit '.' b.1))) (specRestrictFlat m r "") :=
    (List.pairwise_map.mp hpw).imp (fun hab => hab.1)
  have hpar := parse_eq_specRegroup m hT (specRestrictFlat m r "") hpair
  unfold roundTrip
  rw [hfmt]
  exact hpar

/-- C1 witness: a model `{a: integer, b.c: string}` and the record
`{a: 1, b: {c: x, d: 2}}` — the round trip keeps `a` and `b.c` (regrouped under `b`)
and drops the undeclared `b.d`. -/
theorem claim_C1_amended_witness :
    roundTrip { name := "m", fields := [("a", { type := "integer" }), ("b.c", { type := "string" })] }
        (.vobj [("a", .vnum 1), ("b", .vobj [("c", .vstr "x"), ("d", .vnum 2)])])
      = .ok (specRestrict
          { name := "m", fields := [("a", { type := "integer" }), ("b.c", { type := "string" })] }
          [("a", .vnum 1), ("b", .vobj [("c", .vstr "x"), ("d", .vnum 2)])]) :=
  claim_C1_amended _ _ (by decide) (by decide) (by decide)

end Minato
